import Mathlib

/-!
Shallow embedding of the Trestle outliner's model layer and its RDF
projection, together with proofs settling the specification claims.

Sources embedded:
* `src/js/model/TrestleModel.js` (config, node store, turtle serializer,
  SPARQL-bindings loader) — the `Trestle` namespace below;
* `src/js/model/TrestleRDFModel.js` (RDF-dataset-maintaining subclass) —
  the RDF definitions further down.

JavaScript `Map` objects are embedded as association lists preserving
insertion order; object mutation through shared references is embedded by
routing every field update through the store, which is how the source
behaves observably (every live node object is also the map entry).
Nondeterministic inputs of the source (freshly generated ids,
`new Date()` timestamps, network payloads) are passed as explicit
parameters.
-/

namespace Trestle

/-- Namespace URI `Config.PREFIXES.dc` from `config.js`. -/
def dcNs : String := "http://purl.org/dc/terms/"

/-- Namespace URI `Config.PREFIXES.ts` from `config.js`. -/
def tsNs : String := "http://purl.org/stuff/trestle/"

/-- Default RDF syntax namespace used by `addNodeToRDF` when
`Config.PREFIXES.rdf` is absent (it is absent in `config.js`). -/
def rdfNs : String := "http://www.w3.org/1999/02/22-rdf-syntax-ns#"

/-- Default XSD namespace used by `addNodeToRDF` when `Config.PREFIXES.xsd`
is absent (it is absent in `config.js`). -/
def xsdNs : String := "http://www.w3.org/2001/XMLSchema#"

/-- `Config.BASE_URI` from `config.js`. -/
def baseUriConfig : String := "http://hyperdata.it/trestle/"

/-- A node record as built by `TrestleModel` (`addNode`,
`createEmptyModel`, `processLoadedData`).  Absent JavaScript fields are
`none`.  `index` holds the nonnegative integer position values the model
writes into nodes. -/
structure TNode where
  id : String
  type : String
  title : Option String := none
  created : Option String := none
  description : Option String := none
  parent : Option String := none
  index : Option Nat := none
  children : List String := []
deriving Repr, DecidableEq

/-- The `this.nodes` JavaScript `Map`: an insertion-ordered association
list from node id to node record. -/
abbrev NodeMap := List (String × TNode)

/-- Lookup in the node map (`Map.get`). -/
def getM (l : NodeMap) (k : String) : Option TNode :=
  (l.find? (fun p => p.1 == k)).map (·.2)

/-- Store into the node map (`Map.set`): replace in place when the key is
present, append otherwise. -/
def setM (l : NodeMap) (k : String) (v : TNode) : NodeMap :=
  if l.any (fun p => p.1 == k) then
    l.map (fun p => if p.1 == k then (p.1, v) else p)
  else
    l ++ [(k, v)]

/-- Remove from the node map (`Map.delete`). -/
def eraseM (l : NodeMap) (k : String) : NodeMap :=
  l.filter (fun p => p.1 != k)

/-- Mutate the node object stored under a key, if present.  This embeds a
JavaScript field assignment on a node object reached through the map. -/
def modifyM (l : NodeMap) (k : String) (f : TNode → TNode) : NodeMap :=
  l.map (fun p => if p.1 == k then (p.1, f p.2) else p)

/-- State of a `TrestleModel` instance: the endpoint and event bus are
external collaborators and carry no model state. -/
structure Model where
  baseUri : String
  rootId : Option String := none
  nodes : NodeMap := []
deriving Repr, DecidableEq

/-- Lookup a node (`getNode`). -/
def getNode (m : Model) (nodeId : String) : Option TNode :=
  getM m.nodes nodeId

/-- Lookup the root node (`getRootNode`); `this.nodes.get(null)` is
`undefined`, hence the bind. -/
def getRootNode (m : Model) : Option TNode :=
  m.rootId.bind (fun r => getM m.nodes r)

/-- Source `createEmptyModel`: register a fresh root node and point
`rootId` at it.  The generated `root-...` id is the explicit parameter.
Note the source does not clear `this.nodes` here. -/
def createEmptyModel (m : Model) (freshRootId : String) : Model :=
  let rootNode : TNode := { id := freshRootId, type := "RootNode", children := [] }
  { m with rootId := some freshRootId, nodes := setM m.nodes freshRootId rootNode }

/-- Source `updateChildIndices` body: `children.forEach((childId, index)
=> ...)` setting each existing child's `index` field to its position.
`cs` is the children array being walked and `i` the running position. -/
def reindexFrom (l : NodeMap) (cs : List String) (i : Nat) : NodeMap :=
  match cs with
  | [] => l
  | c :: cs' =>
      reindexFrom (modifyM l c (fun n => { n with index := some i })) cs' (i + 1)

/-- Source `updateChildIndices(parentNode)`: reindex the current children
of the node stored under `pid`.  (`modifyM` inside `reindexFrom` skips
ids absent from the map, matching the `if (child)` guard.) -/
def updateChildIndices (m : Model) (pid : String) : Model :=
  match getM m.nodes pid with
  | none => m
  | some p => { m with nodes := reindexFrom m.nodes p.children 0 }

/-- JavaScript `Array.prototype.splice(i, 0, x)`: insert at position `i`,
clamped to the array length. -/
def spliceIn (l : List String) (i : Nat) (x : String) : List String :=
  l.take i ++ x :: l.drop i

/-- Source `addNode(parentId, title, index)`.  The generated node id and
the `generateDate()` timestamp are explicit parameters.  `title` and
`index` are the possibly-`undefined` arguments; `title || ''` defaults a
missing title to the empty string.  The new node is registered first; the
parent, if it resolves, then receives the child (via splice-and-reindex
when an index was given, else by appending with `index` set to the old
length). -/
def addNode (m : Model) (parentId : String) (title : Option String)
    (index : Option Nat) (freshId now : String) : Model :=
  let newNode : TNode :=
    { id := freshId, type := "Node", title := some (title.getD "")
      created := some now, parent := some parentId, index := index
      children := [] }
  let m1 : Model := { m with nodes := setM m.nodes freshId newNode }
  match getM m1.nodes parentId with
  | none => m1
  | some parentNode =>
      match index with
      | some i =>
          let ns2 := modifyM m1.nodes parentId (fun p => { p with children := spliceIn p.children i freshId })
          updateChildIndices { m1 with nodes := ns2 } parentId
      | none =>
          let ns2 := modifyM m1.nodes freshId (fun n => { n with index := some parentNode.children.length })
          let ns3 := modifyM ns2 parentId (fun p => { p with children := p.children ++ [freshId] })
          { m1 with nodes := ns3 }

/-- First half of the source `moveNode` body ("Remove from old parent"):
when the node's recorded parent resolves and actually lists the node,
remove it from that children array and reindex the remaining siblings. -/
def moveDetach (m : Model) (nodeId : String) (node : TNode) : Model :=
  match node.parent with
  | none => m
  | some opid =>
      match getM m.nodes opid with
      | none => m
      | some op =>
          if nodeId ∈ op.children then
            let ns1 := modifyM m.nodes opid (fun p => { p with children := p.children.erase nodeId })
            updateChildIndices { m with nodes := ns1 } opid
          else m

/-- Second half of the source `moveNode` body ("Add to new parent"): when
the new parent resolves, insert the node id (splice at `newIndex` or
append), set the node's `parent` and `index` fields, and reindex the new
parent's children. -/
def moveAttach (m1 : Model) (nodeId newParentId : String) (newIndex : Option Nat) : Model :=
  match getM m1.nodes newParentId with
  | none => m1
  | some np =>
      let idx : Nat := newIndex.getD np.children.length
      let ns2 :=
        match newIndex with
        | some i => modifyM m1.nodes newParentId (fun p => { p with children := spliceIn p.children i nodeId })
        | none => modifyM m1.nodes newParentId (fun p => { p with children := p.children ++ [nodeId] })
      let ns3 := modifyM ns2 nodeId (fun n => { n with parent := some newParentId, index := some idx })
      updateChildIndices { m1 with nodes := ns3 } newParentId

/-- Source `moveNode(nodeId, newParentId, newIndex)`: no-op when the node
is unknown; otherwise detach from the old parent, then attach to the new
parent.  When the new parent does not resolve the node stays detached. -/
def moveNode (m : Model) (nodeId newParentId : String)
    (newIndex : Option Nat) : Model :=
  match getM m.nodes nodeId with
  | none => m
  | some node => moveAttach (moveDetach m nodeId node) nodeId newParentId newIndex

/-- The "Remove from parent's children array" step of the source
`deleteNode`: the `if (parentId)` truthiness guard skips an absent and an
empty-string parent; when the parent resolves and lists the node, the
node is spliced out and the remaining siblings reindexed. -/
def detachChild (m1 : Model) (nodeId : String) (parentOpt : Option String) : Model :=
  match parentOpt with
  | none => m1
  | some pid =>
      if pid = "" then m1
      else
        match getM m1.nodes pid with
        | none => m1
        | some p =>
            if nodeId ∈ p.children then
              let ns2 := modifyM m1.nodes pid (fun q => { q with children := q.children.erase nodeId })
              updateChildIndices { m1 with nodes := ns2 } pid
            else m1

/-- Source `deleteNode(nodeId)` with an explicit recursion budget (the
source recurses without one and would not return on a cyclic store; on
every store the un-fueled source terminates on, the budget below
suffices).  Children are deleted depth-first from a snapshot of the
children array, then the node is detached from its parent and erased. -/
def deleteNodeFuel : Nat → Model → String → Model
  | 0, m, _ => m
  | fuel + 1, m, nodeId =>
      match getM m.nodes nodeId with
      | none => m
      | some node =>
          let m1 : Model :=
            node.children.foldl (fun acc cid => deleteNodeFuel fuel acc cid) m
          let m2 : Model := detachChild m1 nodeId node.parent
          { m2 with nodes := eraseM m2.nodes nodeId }

/-- Source `deleteNode` at the deployed recursion budget. -/
def deleteNode (m : Model) (nodeId : String) : Model :=
  deleteNodeFuel (m.nodes.length + 1) m nodeId

/-- A JavaScript `properties` object passed to `updateNode`: each
component is `some v` when the key is present.  `Object.assign` copies
every present key, including `id`, `parent`, `index` and `children`. -/
structure NodePatch where
  id : Option String := none
  type : Option String := none
  title : Option (Option String) := none
  created : Option (Option String) := none
  description : Option (Option String) := none
  parent : Option (Option String) := none
  index : Option (Option Nat) := none
  children : Option (List String) := none
deriving Repr, DecidableEq

/-- Effect of `Object.assign(node, properties)`. -/
def applyPatch (n : TNode) (p : NodePatch) : TNode :=
  { id := p.id.getD n.id
    type := p.type.getD n.type
    title := p.title.getD n.title
    created := p.created.getD n.created
    description := p.description.getD n.description
    parent := p.parent.getD n.parent
    index := p.index.getD n.index
    children := p.children.getD n.children }

/-- Source `updateNode(nodeId, properties)`: silent no-op on an unknown
id, otherwise `Object.assign` of the provided properties. -/
def updateNode (m : Model) (nodeId : String) (props : NodePatch) : Model :=
  match getM m.nodes nodeId with
  | none => m
  | some _ => { m with nodes := modifyM m.nodes nodeId (fun n => applyPatch n props) }

/-- Source `updateNodeDescription(nodeId, description)`: silent no-op on
an unknown id, otherwise set the `description` field. -/
def updateNodeDescription (m : Model) (nodeId : String) (description : String) : Model :=
  match getM m.nodes nodeId with
  | none => m
  | some _ =>
      let ns1 := modifyM m.nodes nodeId (fun n => { n with description := some description })
      { m with nodes := ns1 }

/-- One global single-character replacement, the effect of the source's
`text.replace(/c/g, r)` calls for a one-character pattern: every
occurrence of the character is replaced by `r`, and replacements are not
rescanned. -/
def replaceAllChar (s : String) (c : Char) (r : String) : String :=
  String.mk (s.data.flatMap (fun ch => if ch = c then r.data else [ch]))

/-- Source `escapeTurtle(text)`: the guarded chain of five global
replacements (backslash, double quote, newline, carriage return, tab), in
source order. -/
def escapeTurtle (text : String) : String :=
  if text = "" then ""
  else
    replaceAllChar
      (replaceAllChar
        (replaceAllChar
          (replaceAllChar
            (replaceAllChar text '\\' "\\\\")
            '\"' "\\\"")
          '\n' "\\n")
        '\r' "\\r")
      '\t' "\\t"

/-- Stanza emitted by `toTurtle` for one non-root node of type `Node`.
Field truthiness guards (`if (node.title)` etc.) skip absent and empty
strings; a missing `index` stringifies as `undefined` and a missing
`rootId` as `null`, exactly as JavaScript template literals would. -/
def turtleStanza (baseUri : String) (rootId : Option String) (node : TNode) : String :=
  let fallbackParent := "   ts:parent <" ++ baseUri ++ rootId.getD "null" ++ "> .\n"
  "<" ++ baseUri ++ node.id ++ "> a ts:Node;\n"
  ++ (match node.title with
      | some t => if t = "" then "" else "   dc:title \"" ++ escapeTurtle t ++ "\" ;\n"
      | none => "")
  ++ (match node.created with
      | some c => if c = "" then "" else "   dc:created \"" ++ c ++ "\" ;\n"
      | none => "")
  ++ "   ts:index \"" ++ (match node.index with | some i => toString i | none => "undefined") ++ "\" ;\n"
  ++ (match node.parent with
      | some p => if p = "" then fallbackParent else "   ts:parent <" ++ baseUri ++ p ++ "> .\n"
      | none => fallbackParent)
  ++ (match node.description with
      | some d => if d = "" then "" else "<" ++ baseUri ++ node.id ++ "> dc:description \"\"\"" ++ escapeTurtle d ++ "\"\"\" .\n"
      | none => "")

/-- Source `toTurtle()`: prefix lines, the root stanza when the root
resolves, then one stanza per stored node of type `Node`, skipping the
entry whose id equals `rootId`, in map insertion order. -/
def toTurtle (m : Model) : String :=
  let pfx := "@prefix dc: <" ++ dcNs ++ "> .\n" ++ "@prefix ts: <" ++ tsNs ++ "> .\n\n"
  let rootPart :=
    match m.rootId with
    | none => ""
    | some rid =>
        match getM m.nodes rid with
        | none => ""
        | some rn => "<" ++ m.baseUri ++ rn.id ++ "> a ts:RootNode .\n"
  let body := m.nodes.foldl
    (fun acc p =>
      if some p.1 = m.rootId then acc
      else if p.2.type = "Node" then acc ++ turtleStanza m.baseUri m.rootId p.2
      else acc) ""
  pfx ++ rootPart ++ body

/-- JavaScript `uri.split(sep)` on the character list of the string. -/
def splitChar (l : List Char) (sep : Char) : List (List Char) :=
  match l with
  | [] => [[]]
  | c :: cs =>
      match splitChar cs sep with
      | [] => [[c]]
      | h :: t => if c = sep then [] :: h :: t else (c :: h) :: t

/-- Source `extractLocalId(uri)`: last segment of the slash-split URI. -/
def extractLocalId (uri : String) : String :=
  ((splitChar uri.data '/').map (fun l => String.mk l)).getLastD ""

/-- Source `extractLocalType(uri)`: identical body to `extractLocalId`. -/
def extractLocalType (uri : String) : String :=
  ((splitChar uri.data '/').map (fun l => String.mk l)).getLastD ""

/-- JavaScript `parseInt(s, 10)` restricted to the digit-prefix case that
the model produces and consumes; an unparsable string yields `none`
(conflating the source's `NaN` with an absent index, which no claim
distinguishes). -/
def parseIntJS (s : String) : Option Nat :=
  let ds := s.data.takeWhile (fun c => c.isDigit)
  if ds.isEmpty then none
  else some (ds.foldl (fun acc c => acc * 10 + (c.toNat - 48)) 0)

/-- Stable insertion step: place `x` after every element whose key is at
most `key x`.  Together with the left fold below this embeds the stable
ascending sort `children.sort((a, b) => keyA - keyB)`. -/
def insertByKey (key : String → Nat) (x : String) : List String → List String
  | [] => [x]
  | y :: l => if key x < key y then x :: y :: l else y :: insertByKey key x l

/-- Stable ascending sort by key, embedding `Array.prototype.sort` with
the numeric comparator used in `processLoadedData`. -/
def sortByKey (key : String → Nat) (l : List String) : List String :=
  l.foldl (fun acc x => insertByKey key x acc) []

/-- Comparator key of the third load pass: `(node.index || 0)` looked up
through the map, `0` when the child id is unknown. -/
def childSortKey (nm : NodeMap) (cid : String) : Nat :=
  match getM nm cid with
  | some c => c.index.getD 0
  | none => 0

/-- One row of `data.results.bindings`: each SPARQL variable is either
absent or an object whose `.value` string is recorded here. -/
structure Binding where
  node : Option String := none
  type : Option String := none
  title : Option String := none
  created : Option String := none
  index : Option String := none
  parent : Option String := none
deriving Repr, DecidableEq

/-- The processable shape of a load payload: `data.results.bindings`.  A
payload without this shape fails before `processLoadedData` touches any
state and is covered by the `none` load outcome of `initialize`. -/
structure SparqlData where
  bindings : List Binding
deriving Repr, DecidableEq

/-- First pass of `processLoadedData`: fold the bindings into a fresh
map, create-or-update per node id, record the last `RootNode` id seen in
`this.rootId`.  Accessing `.value` of a missing `node` or `type` binding
throws in the source; the `Except.error` carries the `this.rootId`
mutations performed before the throw. -/
def firstPass : List Binding → NodeMap → Option String → Except (Option String) (NodeMap × Option String)
  | [], acc, rid => .ok (acc, rid)
  | b :: bs, acc, rid =>
      match b.node with
      | none => .error rid
      | some nodeUri =>
          match b.type with
          | none => .error rid
          | some typeUri =>
              let nodeId := extractLocalId nodeUri
              let ty := extractLocalType typeUri
              let node0 := (getM acc nodeId).getD { id := nodeId, type := "", children := [] }
              let node1 := { node0 with type := ty }
              let node2 := match b.title with | some t => { node1 with title := some t } | none => node1
              let node3 := match b.created with | some c => { node2 with created := some c } | none => node2
              let node4 := match b.index with | some s => { node3 with index := parseIntJS s } | none => node3
              let node5 := match b.parent with | some p => { node4 with parent := some (extractLocalId p) } | none => node4
              let rid' := if ty = "RootNode" then some nodeId else rid
              firstPass bs (setM acc nodeId node5) rid'

/-- Second pass of `processLoadedData`: for each entry, when its
truthy `parent` resolves in the map, append the entry's id to that
parent's children.  `entries` is the iteration snapshot (parents are
never mutated in this pass, so it agrees with live iteration). -/
def secondPass : List (String × TNode) → NodeMap → NodeMap
  | [], acc => acc
  | (id, node) :: rest, acc =>
      let acc' :=
        match node.parent with
        | some p =>
            if p = "" then acc
            else
              match getM acc p with
              | some _ => modifyM acc p (fun pn => { pn with children := pn.children ++ [id] })
              | none => acc
        | none => acc
      secondPass rest acc'

/-- Third pass of `processLoadedData`: sort each nonempty children array
by the linked nodes' `(index || 0)`. -/
def sortPass : List (String × TNode) → NodeMap → NodeMap
  | [], acc => acc
  | (id, _) :: rest, acc =>
      let acc' :=
        match getM acc id with
        | some node =>
            if node.children.length > 0 then
              modifyM acc id (fun n => { n with children := sortByKey (childSortKey acc) n.children })
            else acc
        | none => acc
      sortPass rest acc'

/-- Source `processLoadedData(data)`: clear the store, run the three
passes, install the rebuilt map and the root id.  A throw during the
first pass leaves `this.nodes` cleared and `this.rootId` at whatever the
loop had written; the error value is that partial state. -/
def processLoadedData (m : Model) (data : SparqlData) : Except Model Model :=
  match firstPass data.bindings [] none with
  | .error rid => .error { m with nodes := [], rootId := rid }
  | .ok (nm, rid) =>
      let nm2 := secondPass nm nm
      let nm3 := sortPass nm2 nm2
      .ok { m with nodes := nm3, rootId := rid }

/-- Source method `initialize()` (embedded as `initializeModel`): attempt the load; on a rejected fetch, a
malformed payload (both the `none` outcome) or a throw inside
`processLoadedData`, fall back to `createEmptyModel` on whatever state
the failure left behind. -/
def initializeModel (m : Model) (load : Option SparqlData) (freshRootId : String) : Model :=
  match load with
  | none => createEmptyModel m freshRootId
  | some data =>
      match processLoadedData m data with
      | .ok m2 => m2
      | .error mPartial => createEmptyModel mPartial freshRootId

/-- An RDF term as produced by `rdf-ext` factories in the source: a named
node, or a literal with an optional datatype URI (a plain literal is
`none`, standing for the implicit `xsd:string`). -/
inductive Term where
  | named (uri : String)
  | literal (value : String) (datatype : Option String)
deriving Repr, DecidableEq

/-- An RDF quad of the default graph, as stored in `this.rdfDataset`. -/
structure Quad where
  subj : Term
  pred : String
  obj : Term
deriving Repr, DecidableEq

/-- An `rdf-ext` dataset is a set of quads; the embedding keeps the list
duplicate-free through `addQuad`. -/
abbrev Dataset := List Quad

/-- Effect of `Dataset.add`: a quad equal to a stored one is not added
again. -/
def addQuad (d : Dataset) (q : Quad) : Dataset :=
  if q ∈ d then d else d ++ [q]

/-- Effect of `Dataset.delete`: remove the quad when present. -/
def deleteQuad (d : Dataset) (q : Quad) : Dataset :=
  d.filter (fun x => x ≠ q)

/-- The quads `addNodeToRDF(node)` emits for one node, in emission order:
`rdf:type`, conditional `dc:title`, `dc:created` (falling back to the
current time when the field is falsy), conditional `ts:description`,
conditional `ts:parent`, conditional `ts:index`.  `nowIso` stands for
`new Date().toISOString()` at the call. -/
def nodeQuadsList (baseUri : String) (node : TNode) (nowIso : String) : List Quad :=
  let subj := Term.named (baseUri ++ node.id)
  let createdVal :=
    match node.created with
    | some c => if c = "" then nowIso else c
    | none => nowIso
  [⟨subj, rdfNs ++ "type", Term.named (tsNs ++ node.type)⟩]
  ++ (match node.title with
      | some t => [⟨subj, dcNs ++ "title", Term.literal t none⟩]
      | none => [])
  ++ [⟨subj, dcNs ++ "created", Term.literal createdVal (some (xsdNs ++ "dateTime"))⟩]
  ++ (match node.description with
      | some d => [⟨subj, tsNs ++ "description", Term.literal d none⟩]
      | none => [])
  ++ (match node.parent with
      | some p => [⟨subj, tsNs ++ "parent", Term.named (baseUri ++ p)⟩]
      | none => [])
  ++ (match node.index with
      | some i => [⟨subj, tsNs ++ "index", Term.literal (toString i) none⟩]
      | none => [])

/-- Source `addNodeToRDF(node)`: add the node's quads to the dataset. -/
def addNodeToRDF (d : Dataset) (baseUri : String) (node : TNode) (nowIso : String) : Dataset :=
  (nodeQuadsList baseUri node nowIso).foldl addQuad d

/-- Source `buildRDFDataset()`: clear the dataset and re-add every stored
node's quads in map order.  A single `nowIso` abstracts the per-call
timestamps of one rebuild. -/
def buildRDFDataset (m : Model) (nowIso : String) : Dataset :=
  m.nodes.foldl (fun d p => addNodeToRDF d m.baseUri p.2 nowIso) []

/-- Source `removeNodeFromRDF(nodeId)`: collect the quads whose subject
is the node's URI and the quads whose object is that URI, then delete the
collected quads. -/
def removeNodeFromRDF (d : Dataset) (baseUri : String) (nodeId : String) : Dataset :=
  let subject := Term.named (baseUri ++ nodeId)
  let quadsToRemove := d.filter (fun q => q.subj == subject) ++ d.filter (fun q => q.obj == subject)
  quadsToRemove.foldl deleteQuad d

/-- Source `getAllDescendantIds(nodeId)` with an explicit recursion
budget (see `deleteNodeFuel`): children first, each followed by its own
descendants, over the unchanging store. -/
def gadFuel : Nat → Model → String → List String
  | 0, _, _ => []
  | fuel + 1, m, nodeId =>
      match getM m.nodes nodeId with
      | none => []
      | some node => node.children.flatMap (fun cid => cid :: gadFuel fuel m cid)

/-- Source `getAllDescendantIds` at the deployed recursion budget. -/
def getAllDescendantIds (m : Model) (nodeId : String) : List String :=
  gadFuel (m.nodes.length + 1) m nodeId

/-- State of a `TrestleRDFModel` instance: the inherited model state plus
`this.rdfDataset`. -/
structure RDFModel where
  model : Model
  rdfDataset : Dataset := []
deriving Repr, DecidableEq

/-- Subclass `createEmptyModel`: parent implementation, then a full
dataset rebuild. -/
def rdfCreateEmptyModel (rm : RDFModel) (freshRootId : String) (nowIso : String) : RDFModel :=
  let m2 := createEmptyModel rm.model freshRootId
  { model := m2, rdfDataset := buildRDFDataset m2 nowIso }

/-- Subclass `addNode`: parent implementation, then add the (final) new
node's quads.  Only the new node is projected; siblings shifted by the
splice are not re-projected. -/
def rdfAddNode (rm : RDFModel) (parentId : String) (title : Option String)
    (index : Option Nat) (freshId now nowIso : String) : RDFModel :=
  let m2 := addNode rm.model parentId title index freshId now
  match getM m2.nodes freshId with
  | some nd => { model := m2, rdfDataset := addNodeToRDF rm.rdfDataset m2.baseUri nd nowIso }
  | none => { model := m2, rdfDataset := rm.rdfDataset }

/-- Subclass `updateNode`: parent implementation; when the node resolves,
delete every quad whose subject is the node's URI and re-add the node's
quads. -/
def rdfUpdateNode (rm : RDFModel) (nodeId : String) (props : NodePatch) (nowIso : String) : RDFModel :=
  let m2 := updateNode rm.model nodeId props
  match getM m2.nodes nodeId with
  | none => { model := m2, rdfDataset := rm.rdfDataset }
  | some nd =>
      let subject := Term.named (m2.baseUri ++ nodeId)
      let cleared := rm.rdfDataset.filter (fun q => ¬ (q.subj == subject))
      { model := m2, rdfDataset := addNodeToRDF cleared m2.baseUri nd nowIso }

/-- Subclass `updateNodeDescription`: parent implementation; when the
node resolves, delete the node's `dc:description` quads and, for a truthy
description, add a fresh `dc:description` quad (note: `dc:`, while
`addNodeToRDF` projects descriptions under `ts:`). -/
def rdfUpdateNodeDescription (rm : RDFModel) (nodeId : String) (description : String) : RDFModel :=
  let m2 := updateNodeDescription rm.model nodeId description
  match getM m2.nodes nodeId with
  | none => { model := m2, rdfDataset := rm.rdfDataset }
  | some _ =>
      let subject := Term.named (m2.baseUri ++ nodeId)
      let cleared := rm.rdfDataset.filter
        (fun q => ¬ (q.subj == subject && q.pred == dcNs ++ "description"))
      let d2 :=
        if description = "" then cleared
        else addQuad cleared ⟨subject, dcNs ++ "description", Term.literal description none⟩
      { model := m2, rdfDataset := d2 }

/-- Subclass `deleteNode`: collect the node and all its descendants
before the parent implementation deletes them, then remove each collected
id's quads from the dataset. -/
def rdfDeleteNode (rm : RDFModel) (nodeId : String) : RDFModel :=
  let allNodesToDelete := getAllDescendantIds rm.model nodeId ++ [nodeId]
  let m2 := deleteNode rm.model nodeId
  { model := m2
    rdfDataset := allNodesToDelete.foldl (fun d i => removeNodeFromRDF d rm.model.baseUri i) rm.rdfDataset }

/-- Subclass `moveNode`: parent implementation, then re-project the moved
node and every child of the new parent.  Old-parent siblings whose
indices shifted are not re-projected. -/
def rdfMoveNode (rm : RDFModel) (nodeId newParentId : String) (newIndex : Option Nat)
    (nowIso : String) : RDFModel :=
  let m2 := moveNode rm.model nodeId newParentId newIndex
  let d1 :=
    match getM m2.nodes nodeId with
    | some nd => addNodeToRDF (removeNodeFromRDF rm.rdfDataset m2.baseUri nodeId) m2.baseUri nd nowIso
    | none => rm.rdfDataset
  let d2 :=
    match getM m2.nodes newParentId with
    | some np =>
        np.children.foldl
          (fun d cid =>
            match getM m2.nodes cid with
            | some child => addNodeToRDF (removeNodeFromRDF d m2.baseUri cid) m2.baseUri child nowIso
            | none => d) d1
    | none => d1
  { model := m2, rdfDataset := d2 }

/-! Invariant vocabulary used by the claims about the node store. -/

/-- Key list of the map. -/
def keysM (nm : NodeMap) : List String := nm.map (·.1)

/-- The map holds each id at most once (guaranteed for every store the
application builds, since `Map.set` replaces in place). -/
def keysNodup (nm : NodeMap) : Prop := (keysM nm).Nodup

/-- No stored id is the empty string (ids are `nid-...`/`root-...`
strings from `generateNodeId`; the empty string would behave differently
under the source's truthiness guards). -/
def noEmptyKey (nm : NodeMap) : Prop := ∀ p ∈ nm, p.1 ≠ ""

/-- The child slot `(pid, i, cid)` is consistent: the child id resolves,
its cached `index` equals its position, and its `parent` names the
owner. -/
def childOk (nm : NodeMap) (pid : String) (i : Nat) (cid : String) : Prop :=
  ∃ c, getM nm cid = some c ∧ c.index = some i ∧ c.parent = some pid

/-- Children-array consistency for one stored node. -/
def childrenOk (nm : NodeMap) (pid : String) (p : TNode) : Prop :=
  p.children.Nodup ∧ ∀ i cid, p.children.get? i = some cid → childOk nm pid i cid

/-- Children-array consistency for the whole store. -/
def StoreInv (nm : NodeMap) : Prop :=
  ∀ pid p, getM nm pid = some p → childrenOk nm pid p

/-- The store invariant bundle preserved by the tree mutations. -/
def WF (nm : NodeMap) : Prop :=
  keysNodup nm ∧ noEmptyKey nm ∧ StoreInv nm

/-- Executable check of `childOk`. -/
def childOkB (nm : NodeMap) (pid : String) (i : Nat) (cid : String) : Bool :=
  match getM nm cid with
  | some c => c.index == some i && c.parent == some pid
  | none => false

/-- Executable check of `WF`. -/
def invB (m : Model) : Bool :=
  decide (keysM m.nodes).Nodup
  && m.nodes.all (fun p => p.1 != "")
  && m.nodes.all (fun p =>
      decide p.2.children.Nodup
      && p.2.children.enum.all (fun ic => childOkB m.nodes p.1 ic.1 ic.2))

/-- Executable check of the claim's parent-pointer formulation: every
node with a `parent` field has `parent.childIds[node.index] === node.id`. -/
def parentPtrOkB (m : Model) : Bool :=
  m.nodes.all (fun p =>
    match p.2.parent with
    | none => true
    | some pid =>
        match getM m.nodes pid with
        | none => false
        | some par =>
            match p.2.index with
            | some i => par.children.get? i == some p.1
            | none => false)

/-- One structural mutation call, with the generated id and timestamp of
an `addNode` made explicit. -/
inductive Op where
  | add (parentId : String) (title : Option String) (index : Option Nat) (freshId now : String)
  | move (nodeId newParentId : String) (newIndex : Option Nat)
  | del (nodeId : String)
deriving Repr, DecidableEq

/-- Apply one mutation. -/
def applyOp (m : Model) : Op → Model
  | .add p t i f n => addNode m p t i f n
  | .move n p i => moveNode m n p i
  | .del n => deleteNode m n

/-- Apply a call sequence left to right. -/
def applyOps (m : Model) (ops : List Op) : Model :=
  ops.foldl applyOp m

/-- Admissibility of one call: the id generator's contract (fresh,
nonempty ids) for `add`; every `move`/`del` argument is admissible. -/
def okOp (m : Model) : Op → Bool
  | .add _ _ _ f _ => (getM m.nodes f).isNone && f != ""
  | .move _ _ _ => true
  | .del _ => true

/-- Admissibility of a call sequence. -/
def okOps (m : Model) : List Op → Bool
  | [] => true
  | op :: rest => okOp m op && okOps (applyOp m op) rest

/-- Acyclicity witness for a store: a rank function under which every
child ranks strictly below its parent (any forest admits one, e.g. node
height). -/
def RankedBy (nm : NodeMap) (rk : String → Nat) : Prop :=
  ∀ pid p, getM nm pid = some p → ∀ cid ∈ p.children, rk cid < rk pid

/-- Quads whose subject is the given term. -/
def subjQuads (d : Dataset) (s : Term) : Dataset :=
  d.filter (fun q => q.subj == s)

/-- Does the quad mention (as subject or object) any of the given node
ids' URIs? -/
def touchesAny (baseUri : String) (ids : List String) (q : Quad) : Bool :=
  ids.any (fun i => q.subj == Term.named (baseUri ++ i) || q.obj == Term.named (baseUri ++ i))

/-- Number of stored nodes of type `RootNode`. -/
def rootNodeCount (m : Model) : Nat :=
  (m.nodes.filter (fun p => p.2.type == "RootNode")).length

/-- Specification-side description of the Turtle escaping (from the spec:
backslash, double quote, newline, carriage return and tab are replaced by
their two-character escapes, and nothing else), as a single character-wise
map, to be compared with the source-derived `escapeTurtle`. -/
def specEscapeChar (c : Char) : String :=
  if c = '\\' then "\\\\"
  else if c = '\"' then "\\\""
  else if c = '\n' then "\\n"
  else if c = '\r' then "\\r"
  else if c = '\t' then "\\t"
  else String.mk [c]

/-- Character-wise escaping of a whole string (specification side). -/
def specEscape (s : String) : String :=
  String.mk (s.data.flatMap (fun c => (specEscapeChar c).data))

/-! Concrete stores used by counterexamples and witnesses. -/

/-- A freshly constructed model (constructor state: empty map, no root). -/
def freshModel : Model := { baseUri := baseUriConfig }

/-- Root-only store. -/
def exRoot : Model := createEmptyModel freshModel "root-1"

/-- Root with one child `n1`. -/
def exOne : Model := addNode exRoot "root-1" (some "a") none "n1" "2025-01-01T00:00:00Z"

/-- Root with children `n1`, `n2` (in insertion order). -/
def exTwo : Model := addNode exOne "root-1" (some "b") none "n2" "2025-01-02T00:00:00Z"

/-- Fresh RDF model (constructor state). -/
def freshRDF : RDFModel := { model := freshModel }

/-- RDF model after `createEmptyModel`. -/
def exRDFRoot : RDFModel := rdfCreateEmptyModel freshRDF "root-1" "2025-01-01T00:00:00Z"

/-- RDF model after adding one child. -/
def exRDFOne : RDFModel :=
  rdfAddNode exRDFRoot "root-1" (some "a") none "n1" "2025-01-01T00:00:01Z" "2025-01-01T00:00:01Z"

/-- Store used by the Turtle-escaping scenario: one node titled
`He said "hi"\\and`. -/
def exC6 : Model := addNode exRoot "root-1" (some "He said \"hi\"\\and") none "n1" "2025-01-01"

/-- Bindings list of the load scenario: one `RootNode` binding and one
`Node` binding whose parent URI resolves to the root. -/
def claim9Data : SparqlData :=
  { bindings := [
      { node := some (baseUriConfig ++ "root-1"), type := some (tsNs ++ "RootNode") },
      { node := some (baseUriConfig ++ "n2"), type := some (tsNs ++ "Node"),
        parent := some (baseUriConfig ++ "root-1") } ] }

/-- A processable payload whose second binding lacks the `node` variable,
so the first load pass throws after recording a root id. -/
def claim7BadData : SparqlData :=
  { bindings := [
      { node := some (baseUriConfig ++ "x"), type := some (tsNs ++ "RootNode") },
      { title := some "t" } ] }

/-- Height-style rank witness for the two-child example store. -/
def rkEx : String → Nat :=
  fun s => if s = "root-1" then 2 else if s = "n1" then 1 else 0

/-- A concrete admissible call sequence: add a node under the root, move
it to position 0, then delete it. -/
def claim2Ops : List Op :=
  [Op.add "root-1" (some "x") none "n9" "2025-02-01", Op.move "n9" "root-1" (some 0), Op.del "n9"]

/-- `k`-fold iteration of the `parent` pointer (`0` is the node itself).
Used to reason about ancestor chains in the store. -/
def ancestorAt : Nat → NodeMap → String → Option String
  | 0, _, x => some x
  | k + 1, nm, x =>
      match getM nm x with
      | none => none
      | some n =>
          match n.parent with
          | none => none
          | some p => ancestorAt k nm p

/-- Tree-shape side condition: a stored node whose `parent` resolves is
listed in that parent's children array. -/
def ParentListed (nm : NodeMap) : Prop :=
  ∀ x n p pn, getM nm x = some n → n.parent = some p → getM nm p = some pn →
    x ∈ pn.children

/-- Executable check of `ParentListed`. -/
def parentListedB (m : Model) : Bool :=
  m.nodes.all (fun q =>
    match q.2.parent with
    | none => true
    | some pid =>
        match getM m.nodes pid with
        | none => true
        | some pn => decide (q.1 ∈ pn.children))

/-- Executable check of `RankedBy`. -/
def rankedByB (m : Model) (rk : String → Nat) : Bool :=
  m.nodes.all (fun q => q.2.children.all (fun cid => decide (rk cid < rk q.1)))

/-- One store refines another: every surviving node existed before with a
children array that was at least as large (deletion only shrinks
stores). -/
def StoreLe (a b : NodeMap) : Prop :=
  ∀ x n', getM a x = some n' → ∃ n, getM b x = some n ∧ n'.children.Sublist n.children

/-- A mutation removes a child edge only by deleting the child. -/
def EdgePres (old new : NodeMap) : Prop :=
  ∀ x n n', getM old x = some n → getM new x = some n' →
    ∀ z ∈ n.children, z ∈ n'.children ∨ getM new z = none

/-- A mutation deletes a node only together with all its former
children. -/
def DelClosed (old new : NodeMap) : Prop :=
  ∀ x n, getM old x = some n → getM new x = none → ∀ z ∈ n.children, getM new z = none

/-! Lemmas about the association-list map primitives. -/

theorem getM_cons (p : String × TNode) (l : NodeMap) (k : String) :
    getM (p :: l) k = if p.1 = k then some p.2 else getM l k := by
  by_cases h : p.1 = k
  · simp [getM, List.find?_cons_of_pos, h]
  · simp [getM, List.find?_cons_of_neg, h]

theorem getM_modifyM (l : NodeMap) (k : String) (f : TNode → TNode) (x : String) :
    getM (modifyM l k f) x = if x = k then (getM l x).map f else getM l x := by
  induction l with
  | nil => simp [modifyM, getM]
  | cons p l ih =>
      have h1 : getM (modifyM (p :: l) k f) x
          = if p.1 = x then some (if p.1 = k then f p.2 else p.2) else getM (modifyM l k f) x := by
        have hstep : modifyM (p :: l) k f
            = (if p.1 == k then (p.1, f p.2) else p) :: modifyM l k f := rfl
        rw [hstep, getM_cons]
        by_cases hpk : p.1 = k <;> simp [hpk]
      rw [h1, getM_cons]
      by_cases hpx : p.1 = x
      · subst hpx
        by_cases hpk : p.1 = k <;> simp [hpk]
      · simp only [hpx, if_false]
        exact ih

theorem any_key_iff (l : NodeMap) (k : String) :
    l.any (fun p => p.1 == k) = true ↔ (getM l k).isSome := by
  induction l with
  | nil => simp [getM]
  | cons p l ih =>
      rw [List.any_cons, getM_cons]
      by_cases h : p.1 = k <;> simp [h, ih]

theorem getM_setM (l : NodeMap) (k : String) (v : TNode) (x : String) :
    getM (setM l k v) x = if x = k then some v else getM l x := by
  unfold setM
  by_cases h : l.any (fun p => p.1 == k) = true
  · rw [if_pos h]
    have hmod : l.map (fun p => if p.1 == k then (p.1, v) else p) = modifyM l k (fun _ => v) := rfl
    rw [hmod, getM_modifyM]
    by_cases hx : x = k
    · subst hx
      rcases Option.isSome_iff_exists.mp ((any_key_iff l x).mp h) with ⟨w, hw⟩
      simp [hw]
    · simp [hx]
  · rw [if_neg h]
    have hnone : l.find? (fun p => p.1 == k) = none := by
      rw [List.find?_eq_none]
      intro q hq hbeq
      exact h (List.any_eq_true.mpr ⟨q, hq, hbeq⟩)
    unfold getM
    rw [List.find?_append]
    by_cases hx : x = k
    · subst hx
      rw [hnone]
      simp [List.find?]
    · have hkx : ¬ k = x := fun he => hx he.symm
      have h2 : (([(k, v)] : NodeMap).find? (fun p => p.1 == x)) = none := by
        simp [List.find?_cons, hkx]
      rw [h2, Option.or_none, if_neg hx]

theorem getM_eraseM (l : NodeMap) (k : String) (x : String) :
    getM (eraseM l k) x = if x = k then none else getM l x := by
  induction l with
  | nil => simp [eraseM, getM]
  | cons p l ih =>
      have hstep : eraseM (p :: l) k = if p.1 != k then p :: eraseM l k else eraseM l k := by
        unfold eraseM
        rw [List.filter_cons]
      rw [hstep]
      by_cases hpk : p.1 = k
      · rw [if_neg (by simp [hpk]), ih, getM_cons]
        by_cases hx : x = k
        · simp [hx]
        · have hpx : ¬ p.1 = x := fun he => hx (he ▸ hpk)
          simp [hx, hpx]
      · rw [if_pos (by simp [bne_iff_ne, hpk]), getM_cons, ih, getM_cons]
        by_cases hpx : p.1 = x
        · have hx : ¬ x = k := fun he => hpk (hpx.trans he)
          simp [hpx, hx]
        · simp [hpx]

theorem keysM_modifyM (l : NodeMap) (k : String) (f : TNode → TNode) :
    keysM (modifyM l k f) = keysM l := by
  unfold keysM modifyM
  rw [List.map_map]
  congr 1
  funext p
  by_cases h : p.1 = k <;> simp [h]

theorem length_modifyM (l : NodeMap) (k : String) (f : TNode → TNode) :
    (modifyM l k f).length = l.length := by
  simp [modifyM]

theorem mem_of_getM (l : NodeMap) (k : String) (v : TNode)
    (h : getM l k = some v) : (k, v) ∈ l := by
  unfold getM at h
  rcases hfind : l.find? (fun p => p.1 == k) with _ | q
  · rw [hfind] at h; simp at h
  · rw [hfind] at h
    have hq1 : q.1 = k := by simpa using List.find?_some hfind
    have hq2 : q.2 = v := by simpa using h
    have hmem := List.mem_of_find?_eq_some hfind
    have : q = (k, v) := by
      cases q
      simp_all
    rwa [this] at hmem

theorem getM_of_mem (l : NodeMap) (k : String) (v : TNode) (hnd : keysNodup l)
    (h : (k, v) ∈ l) : getM l k = some v := by
  induction l with
  | nil => simp at h
  | cons p l ih =>
      unfold keysNodup keysM at hnd
      rw [List.map_cons, List.nodup_cons] at hnd
      rw [List.mem_cons] at h
      rw [getM_cons]
      rcases h with h | h
      · simp [← h]
      · have hk : k ∈ keysM l := List.mem_map_of_mem (·.1) h
        have hpk : ¬ p.1 = k := by
          intro he; exact hnd.1 (he ▸ hk)
        rw [if_neg hpk]
        exact ih hnd.2 h

theorem getM_mem_keys (l : NodeMap) (k : String) (h : (getM l k).isSome) :
    k ∈ keysM l := by
  rcases Option.isSome_iff_exists.mp h with ⟨v, hv⟩
  exact List.mem_map_of_mem (·.1) (mem_of_getM l k v hv)

theorem not_key_getM (l : NodeMap) (k : String) (h : k ∉ keysM l) :
    getM l k = none := by
  rcases hres : getM l k with _ | v
  · rfl
  · exact absurd (getM_mem_keys l k (by rw [hres]; rfl)) h

theorem eraseM_of_not_key (l : NodeMap) (k : String) (h : ¬ (getM l k).isSome) :
    eraseM l k = l := by
  induction l with
  | nil => rfl
  | cons p l ih =>
      rw [getM_cons] at h
      have hstep : eraseM (p :: l) k = if p.1 != k then p :: eraseM l k else eraseM l k := by
        unfold eraseM
        rw [List.filter_cons]
      by_cases hpk : p.1 = k
      · simp [hpk] at h
      · rw [hstep, if_pos (by simp [bne_iff_ne, hpk])]
        have h2 : ¬ (getM l k).isSome := by simpa [hpk] using h
        rw [ih h2]

theorem length_eraseM_succ (l : NodeMap) (k : String) (hnd : keysNodup l)
    (h : (getM l k).isSome) : (eraseM l k).length + 1 = l.length := by
  induction l with
  | nil => simp [getM] at h
  | cons p l ih =>
      unfold keysNodup keysM at hnd
      rw [List.map_cons, List.nodup_cons] at hnd
      rw [getM_cons] at h
      have hstep : eraseM (p :: l) k = if p.1 != k then p :: eraseM l k else eraseM l k := by
        unfold eraseM
        rw [List.filter_cons]
      by_cases hpk : p.1 = k
      · rw [hstep, if_neg (by simp [hpk])]
        have hnomem : ¬ (getM l k).isSome := by
          intro hsome
          exact hnd.1 (hpk ▸ getM_mem_keys l k hsome)
        rw [eraseM_of_not_key l k hnomem]
        simp
      · rw [hstep, if_pos (by simp [bne_iff_ne, hpk])]
        have h2 : (getM l k).isSome := by simpa [hpk] using h
        have := ih hnd.2 h2
        simp only [List.length_cons]
        omega

theorem keysNodup_modifyM (l : NodeMap) (k : String) (f : TNode → TNode)
    (h : keysNodup l) : keysNodup (modifyM l k f) := by
  unfold keysNodup
  rw [keysM_modifyM]
  exact h

/-! Lemmas about reindexing (`updateChildIndices`). -/

theorem reindexFrom_not_mem (l : NodeMap) (cs : List String) (i : Nat) (x : String)
    (h : x ∉ cs) : getM (reindexFrom l cs i) x = getM l x := by
  induction cs generalizing l i with
  | nil => rfl
  | cons c cs ih =>
      rw [List.mem_cons] at h
      push_neg at h
      unfold reindexFrom
      rw [ih _ _ h.2, getM_modifyM, if_neg h.1]

theorem reindexFrom_get? (l : NodeMap) (cs : List String) (i0 : Nat) (j : Nat) (x : String)
    (hnd : cs.Nodup) (h : cs.get? j = some x) :
    getM (reindexFrom l cs i0) x
      = (getM l x).map (fun c => { c with index := some (i0 + j) }) := by
  induction cs generalizing l i0 j with
  | nil => simp at h
  | cons c cs ih =>
      rw [List.nodup_cons] at hnd
      cases j with
      | zero =>
          have hcx : c = x := by simpa using h
          subst hcx
          unfold reindexFrom
          rw [reindexFrom_not_mem _ _ _ _ hnd.1, getM_modifyM, if_pos rfl]
          simp
      | succ j =>
          have hmem : x ∈ cs := List.mem_iff_get?.mpr ⟨j, by simpa using h⟩
          have hxc : ¬ x = c := fun he => hnd.1 (he ▸ hmem)
          unfold reindexFrom
          rw [ih _ _ _ hnd.2 (by simpa using h), getM_modifyM, if_neg hxc]
          have : i0 + 1 + j = i0 + (j + 1) := by omega
          rw [this]

theorem reindexFrom_children (l : NodeMap) (cs : List String) (i0 : Nat) (x : String) :
    (getM (reindexFrom l cs i0) x).map (·.children) = (getM l x).map (·.children) := by
  induction cs generalizing l i0 with
  | nil => rfl
  | cons c cs ih =>
      unfold reindexFrom
      rw [ih, getM_modifyM]
      by_cases h : x = c
      · subst h
        cases getM l x <;> simp
      · simp [h]

theorem reindexFrom_parent (l : NodeMap) (cs : List String) (i0 : Nat) (x : String) :
    (getM (reindexFrom l cs i0) x).map (·.parent) = (getM l x).map (·.parent) := by
  induction cs generalizing l i0 with
  | nil => rfl
  | cons c cs ih =>
      unfold reindexFrom
      rw [ih, getM_modifyM]
      by_cases h : x = c
      · subst h
        cases getM l x <;> simp
      · simp [h]

theorem reindexFrom_isSome (l : NodeMap) (cs : List String) (i0 : Nat) (x : String) :
    (getM (reindexFrom l cs i0) x).isSome = (getM l x).isSome := by
  have h := reindexFrom_children l cs i0 x
  cases h1 : getM (reindexFrom l cs i0) x <;> cases h2 : getM l x <;>
    rw [h1, h2] at h <;> simp_all

theorem keysM_reindexFrom (l : NodeMap) (cs : List String) (i0 : Nat) :
    keysM (reindexFrom l cs i0) = keysM l := by
  induction cs generalizing l i0 with
  | nil => rfl
  | cons c cs ih =>
      unfold reindexFrom
      rw [ih, keysM_modifyM]

theorem length_reindexFrom (l : NodeMap) (cs : List String) (i0 : Nat) :
    (reindexFrom l cs i0).length = l.length := by
  induction cs generalizing l i0 with
  | nil => rfl
  | cons c cs ih =>
      unfold reindexFrom
      rw [ih, length_modifyM]

/-! Congruence of `childOk` under children-only node modifications. -/

theorem childOk_modify_children (nm : NodeMap) (k : String) (g : TNode → TNode)
    (hg : ∀ n, (g n).index = n.index ∧ (g n).parent = n.parent)
    (pid : String) (i : Nat) (cid : String) :
    childOk (modifyM nm k g) pid i cid ↔ childOk nm pid i cid := by
  unfold childOk
  rw [getM_modifyM]
  by_cases h : cid = k
  · rw [if_pos h]
    cases hres : getM nm cid with
    | none => simp
    | some c =>
        simp only [Option.map_some']
        constructor
        · rintro ⟨c2, hc2, hidx, hpar⟩
          obtain rfl : g c = c2 := by simpa using hc2
          exact ⟨c, rfl, (hg c).1 ▸ hidx, (hg c).2 ▸ hpar⟩
        · rintro ⟨c2, hc2, hidx, hpar⟩
          obtain rfl : c = c2 := by simpa using hc2
          exact ⟨g c, rfl, (hg c).1.trans hidx, (hg c).2.trans hpar⟩
  · rw [if_neg h]

/-- The central reindexing lemma: `updateChildIndices m pid` restores the
full store invariant provided every other node's children are consistent
and `pid`'s children are duplicate-free and resolve with correct parent
fields (their cached indices may be arbitrary). -/
theorem storeInv_updateChildIndices (m : Model) (pid : String)
    (hOthers : ∀ qid q, getM m.nodes qid = some q → qid ≠ pid → childrenOk m.nodes qid q)
    (hPid : ∀ p, getM m.nodes pid = some p →
      p.children.Nodup ∧ ∀ cid ∈ p.children, ∃ c, getM m.nodes cid = some c ∧ c.parent = some pid) :
    StoreInv (updateChildIndices m pid).nodes := by
  cases hp : getM m.nodes pid with
  | none =>
      have hun : updateChildIndices m pid = m := by
        unfold updateChildIndices
        rw [hp]
      rw [hun]
      intro qid q hq
      by_cases hqp : qid = pid
      · rw [hqp, hp] at hq
        exact absurd hq (by simp)
      · exact hOthers qid q hq hqp
  | some p =>
      have hun : (updateChildIndices m pid).nodes = reindexFrom m.nodes p.children 0 := by
        unfold updateChildIndices
        rw [hp]
      rw [hun]
      intro qid q' hq'
      have hpd := hPid p hp
      have hsome : (getM m.nodes qid).isSome = true := by
        have h2 := reindexFrom_isSome m.nodes p.children 0 qid
        rw [hq'] at h2
        rw [← h2]
        rfl
      rcases Option.isSome_iff_exists.mp hsome with ⟨q, hq⟩
      have hch : q'.children = q.children := by
        have h3 := reindexFrom_children m.nodes p.children 0 qid
        rw [hq', hq] at h3
        simpa using h3
      by_cases hqp : qid = pid
      · subst hqp
        obtain rfl : p = q := by
          rw [hp] at hq
          simpa using hq
        constructor
        · rw [hch]
          exact hpd.1
        · intro i cid hi
          rw [hch] at hi
          have hmem : cid ∈ p.children := List.mem_iff_get?.mpr ⟨i, hi⟩
          rcases hpd.2 cid hmem with ⟨c, hc, hcp⟩
          refine ⟨{ c with index := some i }, ?_, rfl, by simpa using hcp⟩
          have h4 := reindexFrom_get? m.nodes p.children 0 i cid hpd.1 hi
          rw [hc] at h4
          simpa using h4
      · have hco := hOthers qid q hq hqp
        constructor
        · rw [hch]
          exact hco.1
        · intro i cid hi
          rw [hch] at hi
          rcases hco.2 i cid hi with ⟨c, hc, hidx, hpar⟩
          have hnotp : cid ∉ p.children := by
            intro hmem
            rcases hpd.2 cid hmem with ⟨c2, hc2, hc2p⟩
            rw [hc] at hc2
            obtain rfl : c = c2 := by simpa using hc2
            rw [hpar] at hc2p
            exact hqp (by simpa using hc2p)
          refine ⟨c, ?_, hidx, hpar⟩
          rw [reindexFrom_not_mem _ _ _ _ hnotp, hc]

/-! Supporting lemmas for the mutation preservation proofs. -/

theorem childOk_modify_at_ne (nm : NodeMap) (k : String) (g : TNode → TNode)
    (pid : String) (i : Nat) (cid : String) (h : cid ≠ k) :
    childOk (modifyM nm k g) pid i cid ↔ childOk nm pid i cid := by
  unfold childOk
  rw [getM_modifyM, if_neg h]

theorem spliceIn_perm (l : List String) (i : Nat) (x : String) :
    (spliceIn l i x).Perm (x :: l) := by
  unfold spliceIn
  have h : (l.take i ++ x :: l.drop i).Perm (x :: (l.take i ++ l.drop i)) :=
    List.perm_middle
  rwa [List.take_append_drop] at h

theorem mem_spliceIn (l : List String) (i : Nat) (x y : String) :
    y ∈ spliceIn l i x ↔ y = x ∨ y ∈ l := by
  rw [(spliceIn_perm l i x).mem_iff]
  simp

theorem nodup_spliceIn (l : List String) (i : Nat) (x : String)
    (hx : x ∉ l) (h : l.Nodup) : (spliceIn l i x).Nodup := by
  rw [(spliceIn_perm l i x).nodup_iff]
  exact List.nodup_cons.mpr ⟨hx, h⟩

theorem setM_fresh_eq (l : NodeMap) (k : String) (v : TNode)
    (h : getM l k = none) : setM l k v = l ++ [(k, v)] := by
  unfold setM
  rw [if_neg]
  rw [any_key_iff, h]
  simp

theorem mem_keys_isSome (l : NodeMap) (k : String) (h : k ∈ keysM l) :
    (getM l k).isSome := by
  induction l with
  | nil => simp [keysM] at h
  | cons p l ih =>
      rw [getM_cons]
      by_cases hpk : p.1 = k
      · simp [hpk]
      · rw [if_neg hpk]
        apply ih
        unfold keysM at h ⊢
        rw [List.map_cons, List.mem_cons] at h
        rcases h with h | h
        · exact absurd h.symm hpk
        · exact h

theorem keysNodup_setM_fresh (l : NodeMap) (k : String) (v : TNode)
    (h : getM l k = none) (hnd : keysNodup l) : keysNodup (setM l k v) := by
  rw [setM_fresh_eq l k v h]
  unfold keysNodup keysM at hnd ⊢
  rw [List.map_append]
  simp only [List.map_cons, List.map_nil]
  rw [List.nodup_append]
  refine ⟨hnd, List.nodup_singleton k, ?_⟩
  intro a ha hb
  simp only [List.mem_singleton] at hb
  subst hb
  have hsome := mem_keys_isSome l a ha
  rw [h] at hsome
  simp at hsome

theorem noEmpty_modifyM (l : NodeMap) (k : String) (f : TNode → TNode)
    (h : noEmptyKey l) : noEmptyKey (modifyM l k f) := by
  intro p hp
  unfold modifyM at hp
  rcases List.mem_map.mp hp with ⟨q, hq, hqe⟩
  have h1 : (if (q.1 == k) = true then (q.1, f q.2) else q).1 = q.1 := by
    by_cases hb : q.1 = k <;> simp [hb]
  have : p.1 = q.1 := hqe ▸ h1
  rw [this]
  exact h q hq

theorem noEmpty_reindexFrom (l : NodeMap) (cs : List String) (i0 : Nat)
    (h : noEmptyKey l) : noEmptyKey (reindexFrom l cs i0) := by
  induction cs generalizing l i0 with
  | nil => exact h
  | cons c cs ih =>
      unfold reindexFrom
      exact ih _ _ (noEmpty_modifyM _ _ _ h)

theorem keysNodup_reindexFrom (l : NodeMap) (cs : List String) (i0 : Nat)
    (h : keysNodup l) : keysNodup (reindexFrom l cs i0) := by
  unfold keysNodup
  rw [keysM_reindexFrom]
  exact h

theorem noEmpty_eraseM (l : NodeMap) (k : String) (h : noEmptyKey l) :
    noEmptyKey (eraseM l k) := by
  intro p hp
  exact h p ((List.filter_sublist l).subset hp)

theorem keysNodup_eraseM (l : NodeMap) (k : String) (h : keysNodup l) :
    keysNodup (eraseM l k) := by
  unfold keysNodup keysM at h ⊢
  exact ((List.filter_sublist l).map (·.1)).nodup h

theorem noEmpty_setM_fresh (l : NodeMap) (k : String) (v : TNode)
    (hfresh : getM l k = none) (hk : k ≠ "") (h : noEmptyKey l) :
    noEmptyKey (setM l k v) := by
  rw [setM_fresh_eq l k v hfresh]
  intro p hp
  rcases List.mem_append.mp hp with hp | hp
  · exact h p hp
  · simp only [List.mem_singleton] at hp
    rw [hp]
    exact hk

theorem keysM_updateChildIndices (m : Model) (pid : String) :
    keysM (updateChildIndices m pid).nodes = keysM m.nodes := by
  unfold updateChildIndices
  cases getM m.nodes pid with
  | none => rfl
  | some p => exact keysM_reindexFrom m.nodes p.children 0

theorem noEmpty_updateChildIndices (m : Model) (pid : String)
    (h : noEmptyKey m.nodes) : noEmptyKey (updateChildIndices m pid).nodes := by
  unfold updateChildIndices
  cases getM m.nodes pid with
  | none => exact h
  | some p => exact noEmpty_reindexFrom m.nodes p.children 0 h

theorem keysNodup_updateChildIndices (m : Model) (pid : String)
    (h : keysNodup m.nodes) : keysNodup (updateChildIndices m pid).nodes := by
  unfold keysNodup
  rw [keysM_updateChildIndices]
  exact h

theorem length_updateChildIndices (m : Model) (pid : String) :
    (updateChildIndices m pid).nodes.length = m.nodes.length := by
  unfold updateChildIndices
  cases getM m.nodes pid with
  | none => rfl
  | some p => exact length_reindexFrom m.nodes p.children 0

theorem keysNodup_updateChildIndices_mk (bu : String) (ri : Option String)
    (nm : NodeMap) (pid : String) (h : keysNodup nm) :
    keysNodup (updateChildIndices ⟨bu, ri, nm⟩ pid).nodes :=
  keysNodup_updateChildIndices ⟨bu, ri, nm⟩ pid h

theorem noEmpty_updateChildIndices_mk (bu : String) (ri : Option String)
    (nm : NodeMap) (pid : String) (h : noEmptyKey nm) :
    noEmptyKey (updateChildIndices ⟨bu, ri, nm⟩ pid).nodes :=
  noEmpty_updateChildIndices ⟨bu, ri, nm⟩ pid h

/-- Detaching a child id from a stored node's children and reindexing
preserves the invariant bundle. -/
theorem WF_removeChild (m : Model) (opid nid : String)
    (hwf : WF m.nodes) :
    WF (updateChildIndices
      { m with nodes := modifyM m.nodes opid (fun p => { p with children := p.children.erase nid }) }
      opid).nodes := by
  obtain ⟨hknd, hnem, hinv⟩ := hwf
  have hgecp : ∀ n : TNode,
      ({ n with children := n.children.erase nid } : TNode).index = n.index ∧
      ({ n with children := n.children.erase nid } : TNode).parent = n.parent := by
    intro n
    exact ⟨rfl, rfl⟩
  refine ⟨?_, ?_, ?_⟩
  · exact keysNodup_updateChildIndices
      { m with nodes := modifyM m.nodes opid (fun p => { p with children := p.children.erase nid }) }
      opid
      (keysNodup_modifyM m.nodes opid (fun p => { p with children := p.children.erase nid }) hknd)
  · exact noEmpty_updateChildIndices
      { m with nodes := modifyM m.nodes opid (fun p => { p with children := p.children.erase nid }) }
      opid
      (noEmpty_modifyM m.nodes opid (fun p => { p with children := p.children.erase nid }) hnem)
  · apply storeInv_updateChildIndices
    · intro qid q hq hqp
      have hq2 : getM (modifyM m.nodes opid
          (fun p => { p with children := p.children.erase nid })) qid = some q := hq
      rw [getM_modifyM, if_neg hqp] at hq2
      have hco := hinv qid q hq2
      show childrenOk (modifyM m.nodes opid
        (fun p => { p with children := p.children.erase nid })) qid q
      refine ⟨hco.1, fun i cid hi => ?_⟩
      exact (childOk_modify_children m.nodes opid _ hgecp qid i cid).mpr (hco.2 i cid hi)
    · intro p' hp'
      have hp2 : getM (modifyM m.nodes opid
          (fun p => { p with children := p.children.erase nid })) opid = some p' := hp'
      rw [getM_modifyM, if_pos rfl] at hp2
      cases hop : getM m.nodes opid with
      | none => rw [hop] at hp2; simp at hp2
      | some op =>
          rw [hop] at hp2
          obtain rfl : ({ op with children := op.children.erase nid } : TNode) = p' := by
            simpa using hp2
          have hco := hinv opid op hop
          constructor
          · exact hco.1.erase nid
          · intro cid hcid
            have hcid2 : cid ∈ op.children := (List.erase_sublist nid op.children).subset hcid
            rcases List.mem_iff_get?.mp hcid2 with ⟨j, hj⟩
            rcases hco.2 j cid hj with ⟨c, hc, hidx, hpar⟩
            by_cases hcp : cid = opid
            · refine ⟨{ op with children := op.children.erase nid }, ?_, ?_⟩
              · show getM (modifyM m.nodes opid
                  (fun p => { p with children := p.children.erase nid })) cid = _
                rw [getM_modifyM, if_pos hcp, hcp, hop]
                rfl
              · rw [hcp, hop] at hc
                obtain rfl : op = c := by simpa using hc
                exact hpar
            · refine ⟨c, ?_, hpar⟩
              show getM (modifyM m.nodes opid
                (fun p => { p with children := p.children.erase nid })) cid = some c
              rw [getM_modifyM, if_neg hcp]
              exact hc

theorem resolveParent_modify_children (nm : NodeMap) (k : String) (g : TNode → TNode)
    (hg : ∀ n, (g n).parent = n.parent) (pid cid : String)
    (h : ∃ c, getM nm cid = some c ∧ c.parent = some pid) :
    ∃ c, getM (modifyM nm k g) cid = some c ∧ c.parent = some pid := by
  rcases h with ⟨c, hc, hcp⟩
  by_cases hck : cid = k
  · refine ⟨g c, ?_, (hg c).trans hcp⟩
    rw [getM_modifyM, if_pos hck, hc]
    rfl
  · exact ⟨c, by rw [getM_modifyM, if_neg hck]; exact hc, hcp⟩

theorem childOk_lift_two (S : NodeMap) (freshId parentId : String)
    (g1 g2 : TNode → TNode)
    (hg2 : ∀ n, (g2 n).index = n.index ∧ (g2 n).parent = n.parent)
    (qid : String) (j : Nat) (cid : String) (hne : cid ≠ freshId)
    (h : childOk S qid j cid) :
    childOk (modifyM (modifyM S freshId g1) parentId g2) qid j cid := by
  have h1 : childOk (modifyM S freshId g1) qid j cid := by
    unfold childOk at h ⊢
    rw [getM_modifyM, if_neg hne]
    exact h
  exact (childOk_modify_children _ parentId g2 hg2 qid j cid).mpr h1

/-- Store-invariant core of the splice branch of `addNode`, over an
abstract store `S` already containing both the parent and the fresh
node. -/
theorem storeInv_addSplice (bu : String) (ri : Option String) (S : NodeMap)
    (parentId freshId : String) (i : Nat) (parentNode nnS : TNode)
    (hinvS : StoreInv S) (hpar : getM S parentId = some parentNode)
    (hSf : getM S freshId = some nnS) (hnnp : nnS.parent = some parentId)
    (hfnot : freshId ∉ parentNode.children) :
    StoreInv (updateChildIndices ⟨bu, ri, modifyM S parentId
      (fun p => { p with children := spliceIn p.children i freshId })⟩ parentId).nodes := by
  apply storeInv_updateChildIndices
  · intro qid q hq hqp
    have hq2 : getM (modifyM S parentId
        (fun p => { p with children := spliceIn p.children i freshId })) qid = some q := hq
    rw [getM_modifyM, if_neg hqp] at hq2
    have hco := hinvS qid q hq2
    refine ⟨hco.1, fun j cid hj => ?_⟩
    exact (childOk_modify_children S parentId
      (fun p => { p with children := spliceIn p.children i freshId })
      (fun n => ⟨rfl, rfl⟩) qid j cid).mpr (hco.2 j cid hj)
  · intro p' hp'
    have hp2 : getM (modifyM S parentId
        (fun p => { p with children := spliceIn p.children i freshId })) parentId = some p' := hp'
    rw [getM_modifyM, if_pos rfl, hpar] at hp2
    obtain rfl :
        ({ parentNode with children := spliceIn parentNode.children i freshId } : TNode) = p' := by
      simpa using hp2
    refine ⟨nodup_spliceIn _ _ _ hfnot (hinvS parentId parentNode hpar).1, ?_⟩
    intro cid hcid
    have hcid2 : cid ∈ spliceIn parentNode.children i freshId := hcid
    apply resolveParent_modify_children S parentId
      (fun p => { p with children := spliceIn p.children i freshId }) (fun n => rfl) parentId cid
    rcases (mem_spliceIn _ _ _ _).mp hcid2 with hcf | hcm
    · rw [hcf]
      exact ⟨nnS, hSf, hnnp⟩
    · rcases List.mem_iff_get?.mp hcm with ⟨j, hj⟩
      rcases (hinvS parentId parentNode hpar).2 j cid hj with ⟨c, hc, _, hcp⟩
      exact ⟨c, hc, hcp⟩

/-- Store-invariant core of the append branch of `addNode`, over an
abstract store `S` already containing both the parent and the fresh
node (whose children list is empty). -/
theorem storeInv_addAppend (S : NodeMap) (parentId freshId : String)
    (parentNode nnS : TNode)
    (hinvS : StoreInv S) (hpar : getM S parentId = some parentNode)
    (hSf : getM S freshId = some nnS) (hnnp : nnS.parent = some parentId)
    (hnnc : nnS.children = [])
    (hfnot : freshId ∉ parentNode.children) :
    StoreInv (modifyM (modifyM S freshId
        (fun n => { n with index := some parentNode.children.length }))
      parentId (fun p => { p with children := p.children ++ [freshId] })) := by
  have hnochild : ∀ qid q j, getM S qid = some q → ¬ q.children.get? j = some freshId := by
    intro qid q j hq hj
    rcases (hinvS qid q hq).2 j freshId hj with ⟨c, hc, _, hcp⟩
    rw [hSf] at hc
    obtain rfl : nnS = c := by simpa using hc
    rw [hnnp] at hcp
    have hpq : parentId = qid := by simpa using hcp
    subst hpq
    rw [hpar] at hq
    obtain rfl : parentNode = q := by simpa using hq
    exact hfnot (List.mem_iff_get?.mpr ⟨j, hj⟩)
  intro qid q hq
  by_cases hqP : qid = parentId
  · subst hqP
    by_cases hPF : qid = freshId
    · have hpn : parentNode = nnS := by
        rw [hPF, hSf] at hpar
        exact (by simpa using hpar : nnS = parentNode).symm
      have hpc : parentNode.children = [] := by rw [hpn, hnnc]
      have hval : getM (modifyM (modifyM S freshId
            (fun n => { n with index := some parentNode.children.length }))
          qid (fun p => { p with children := p.children ++ [freshId] })) qid
          = some { nnS with index := some parentNode.children.length, children := nnS.children ++ [freshId] } := by
        rw [getM_modifyM, if_pos rfl, getM_modifyM, if_pos hPF, hPF, hSf]
        rfl
      rw [hval] at hq
      obtain rfl :
          ({ nnS with index := some parentNode.children.length, children := nnS.children ++ [freshId] } : TNode) = q := by
        simpa using hq
      constructor
      · show (nnS.children ++ [freshId]).Nodup
        rw [hnnc]
        exact List.nodup_singleton freshId
      · intro j cid hj
        have hj2 : (nnS.children ++ [freshId]).get? j = some cid := hj
        rw [hnnc] at hj2
        cases j with
        | zero =>
            obtain rfl : freshId = cid := by simpa using hj2
            have hvalF : getM (modifyM (modifyM S freshId
                  (fun n => { n with index := some parentNode.children.length }))
                qid (fun p => { p with children := p.children ++ [freshId] })) freshId
                = some { nnS with index := some parentNode.children.length, children := nnS.children ++ [freshId] } := by
              rw [getM_modifyM, if_pos hPF.symm, getM_modifyM, if_pos rfl, hSf]
              rfl
            refine ⟨_, hvalF, ?_, ?_⟩
            · show some parentNode.children.length = some 0
              rw [hpc]
              rfl
            · show nnS.parent = some qid
              rw [hnnp, hPF]
        | succ j => simp at hj2
    · have hval : getM (modifyM (modifyM S freshId
            (fun n => { n with index := some parentNode.children.length }))
          qid (fun p => { p with children := p.children ++ [freshId] })) qid
          = some { parentNode with children := parentNode.children ++ [freshId] } := by
        rw [getM_modifyM, if_pos rfl, getM_modifyM, if_neg hPF, hpar]
        rfl
      rw [hval] at hq
      obtain rfl :
          ({ parentNode with children := parentNode.children ++ [freshId] } : TNode) = q := by
        simpa using hq
      constructor
      · show (parentNode.children ++ [freshId]).Nodup
        rw [List.nodup_append]
        exact ⟨(hinvS qid parentNode hpar).1, List.nodup_singleton freshId,
          fun a ha hb => hfnot ((List.mem_singleton.mp hb) ▸ ha)⟩
      · intro j cid hj
        have hj2 : (parentNode.children ++ [freshId]).get? j = some cid := hj
        rcases Nat.lt_trichotomy j parentNode.children.length with hlt | heq | hgt
        · rw [List.get?_append hlt] at hj2
          have hcf : cid ≠ freshId := fun he =>
            hfnot (he ▸ List.mem_iff_get?.mpr ⟨j, hj2⟩)
          exact childOk_lift_two S freshId qid
            (fun n => { n with index := some parentNode.children.length })
            (fun p => { p with children := p.children ++ [freshId] })
            (fun n => ⟨rfl, rfl⟩) qid j cid hcf
            ((hinvS qid parentNode hpar).2 j cid hj2)
        · subst heq
          rw [List.get?_concat_length] at hj2
          obtain rfl : freshId = cid := by simpa using hj2
          refine ⟨{ nnS with index := some parentNode.children.length }, ?_, rfl, ?_⟩
          · rw [getM_modifyM, if_neg (fun he => hPF he.symm), getM_modifyM, if_pos rfl, hSf]
            rfl
          · show nnS.parent = some qid
            exact hnnp
        · exfalso
          rw [List.get?_eq_none.mpr (by simp; omega)] at hj2
          simp at hj2
  · by_cases hqF : qid = freshId
    · have hval : getM (modifyM (modifyM S freshId
            (fun n => { n with index := some parentNode.children.length }))
          parentId (fun p => { p with children := p.children ++ [freshId] })) qid
          = some { nnS with index := some parentNode.children.length } := by
        rw [getM_modifyM, if_neg hqP, getM_modifyM, if_pos hqF, hqF, hSf]
        rfl
      rw [hval] at hq
      obtain rfl : ({ nnS with index := some parentNode.children.length } : TNode) = q := by
        simpa using hq
      constructor
      · show nnS.children.Nodup
        rw [hnnc]
        exact List.nodup_nil
      · intro j cid hj
        have hj2 : nnS.children.get? j = some cid := hj
        rw [hnnc] at hj2
        simp at hj2
    · have hval : getM (modifyM (modifyM S freshId
            (fun n => { n with index := some parentNode.children.length }))
          parentId (fun p => { p with children := p.children ++ [freshId] })) qid
          = getM S qid := by
        rw [getM_modifyM, if_neg hqP, getM_modifyM, if_neg hqF]
      rw [hval] at hq
      have hco := hinvS qid q hq
      refine ⟨hco.1, fun j cid hj => ?_⟩
      have hcf : cid ≠ freshId := fun he => hnochild qid q j hq (he ▸ hj)
      exact childOk_lift_two S freshId parentId
        (fun n => { n with index := some parentNode.children.length })
        (fun p => { p with children := p.children ++ [freshId] })
        (fun n => ⟨rfl, rfl⟩) qid j cid hcf
        (hco.2 j cid hj)

/-- Admissible `addNode` calls preserve the invariant bundle. -/
theorem WF_addNode (m : Model) (parentId : String) (title : Option String)
    (index : Option Nat) (freshId now : String)
    (hwf : WF m.nodes) (hfresh : getM m.nodes freshId = none) (hne : freshId ≠ "") :
    WF (addNode m parentId title index freshId now).nodes := by
  obtain ⟨hknd, hnem, hinv⟩ := hwf
  have hg1 : ∀ x, getM (setM m.nodes freshId
      { id := freshId, type := "Node", title := some (title.getD "")
        created := some now, parent := some parentId, index := index
        children := [] }) x
      = if x = freshId then some
          { id := freshId, type := "Node", title := some (title.getD "")
            created := some now, parent := some parentId, index := index
            children := [] }
        else getM m.nodes x := fun x => getM_setM _ _ _ x
  have hknd1 := keysNodup_setM_fresh m.nodes freshId
    { id := freshId, type := "Node", title := some (title.getD "")
      created := some now, parent := some parentId, index := index
      children := [] } hfresh hknd
  have hne1 := noEmpty_setM_fresh m.nodes freshId
    { id := freshId, type := "Node", title := some (title.getD "")
      created := some now, parent := some parentId, index := index
      children := [] } hfresh hne hnem
  have hinv1 : StoreInv (setM m.nodes freshId
      { id := freshId, type := "Node", title := some (title.getD "")
        created := some now, parent := some parentId, index := index
        children := [] }) := by
    intro qid q hq
    rw [hg1] at hq
    by_cases hq1 : qid = freshId
    · rw [if_pos hq1] at hq
      obtain rfl :
          ({ id := freshId, type := "Node", title := some (title.getD ""),
             created := some now, parent := some parentId, index := index,
             children := [] } : TNode) = q := by simpa using hq
      exact ⟨List.nodup_nil, fun i cid hi => by simp at hi⟩
    · rw [if_neg hq1] at hq
      have hco := hinv qid q hq
      refine ⟨hco.1, fun i cid hi => ?_⟩
      rcases hco.2 i cid hi with ⟨c, hc, hidx, hpar⟩
      have hcne : ¬ cid = freshId := by
        intro he
        rw [he, hfresh] at hc
        simp at hc
      exact ⟨c, by rw [hg1, if_neg hcne]; exact hc, hidx, hpar⟩
  cases hpar : getM (setM m.nodes freshId
      { id := freshId, type := "Node", title := some (title.getD ""),
        created := some now, parent := some parentId, index := index,
        children := [] }) parentId with
  | none =>
      have heq : addNode m parentId title index freshId now
          = { m with nodes := (setM m.nodes freshId
              { id := freshId, type := "Node", title := some (title.getD ""),
                created := some now, parent := some parentId, index := index,
                children := [] }) } := by
        simp only [addNode]
        rw [hpar]
      rw [heq]
      exact ⟨hknd1, hne1, hinv1⟩
  | some parentNode =>
      have hfnot : freshId ∉ parentNode.children := by
        by_cases hpf : parentId = freshId
        · have h2 := hpar
          rw [hg1, if_pos hpf] at h2
          obtain rfl :
              ({ id := freshId, type := "Node", title := some (title.getD ""),
                 created := some now, parent := some parentId, index := index,
                 children := [] } : TNode) = parentNode := by simpa using h2
          simp
        · have h2 := hpar
          rw [hg1, if_neg hpf] at h2
          intro hmem
          rcases List.mem_iff_get?.mp hmem with ⟨j, hj⟩
          rcases (hinv parentId parentNode h2).2 j freshId hj with ⟨c, hc, _, _⟩
          rw [hfresh] at hc
          simp at hc
      cases index with
      | some i =>
          have heq : addNode m parentId title (some i) freshId now
              = updateChildIndices
                  { m with nodes := (modifyM (setM m.nodes freshId
                      { id := freshId, type := "Node", title := some (title.getD ""),
                        created := some now, parent := some parentId, index := some i,
                        children := [] }) parentId
                      (fun p => { p with children := spliceIn p.children i freshId })) }
                  parentId := by
            simp only [addNode]
            rw [hpar]
          rw [heq]
          refine ⟨?_, ?_, ?_⟩
          · exact keysNodup_updateChildIndices_mk _ _ _ _ (keysNodup_modifyM _ _ _ hknd1)
          · exact noEmpty_updateChildIndices_mk _ _ _ _ (noEmpty_modifyM _ _ _ hne1)
          · exact storeInv_addSplice m.baseUri m.rootId _ parentId freshId i parentNode _
              hinv1 hpar (by rw [hg1, if_pos rfl]) rfl hfnot
      | none =>
          have heq : addNode m parentId title none freshId now
              = { m with nodes := (modifyM (modifyM (setM m.nodes freshId
                  { id := freshId, type := "Node", title := some (title.getD ""),
                    created := some now, parent := some parentId, index := none,
                    children := [] }) freshId
                  (fun n => { n with index := some parentNode.children.length })) parentId
                  (fun p => { p with children := p.children ++ [freshId] })) } := by
            simp only [addNode]
            rw [hpar]
          rw [heq]
          show WF (modifyM (modifyM (setM m.nodes freshId
              { id := freshId, type := "Node", title := some (title.getD ""),
                created := some now, parent := some parentId, index := none,
                children := [] }) freshId
              (fun n => { n with index := some parentNode.children.length })) parentId
              (fun p => { p with children := p.children ++ [freshId] }))
          refine ⟨?_, ?_, ?_⟩
          · exact keysNodup_modifyM _ _ _ (keysNodup_modifyM _ _ _ hknd1)
          · exact noEmpty_modifyM _ _ _ (noEmpty_modifyM _ _ _ hne1)
          · exact storeInv_addAppend _ parentId freshId parentNode _
              hinv1 hpar (by rw [hg1, if_pos rfl]) rfl rfl hfnot

/-- The detach phase of `moveNode` preserves the invariant bundle, after
it no stored node lists the moved id among its children, and the moved
id still resolves. -/
theorem WF_moveDetach (m : Model) (nodeId : String) (node : TNode)
    (hwf : WF m.nodes) (hnode : getM m.nodes nodeId = some node) :
    WF (moveDetach m nodeId node).nodes ∧
    (∀ qid q j, getM (moveDetach m nodeId node).nodes qid = some q →
      ¬ q.children.get? j = some nodeId) ∧
    (getM (moveDetach m nodeId node).nodes nodeId).isSome = true := by
  obtain ⟨hknd, hnem, hinv⟩ := hwf
  cases hp : node.parent with
  | none =>
      have heq : moveDetach m nodeId node = m := by
        unfold moveDetach
        rw [hp]
      rw [heq]
      refine ⟨⟨hknd, hnem, hinv⟩, ?_, by rw [hnode]; rfl⟩
      intro qid q j hq hj
      rcases (hinv qid q hq).2 j nodeId hj with ⟨c, hc, _, hcp⟩
      rw [hnode] at hc
      obtain rfl : node = c := by simpa using hc
      rw [hp] at hcp
      simp at hcp
  | some opid =>
      cases hop : getM m.nodes opid with
      | none =>
          have heq : moveDetach m nodeId node = m := by
            unfold moveDetach
            rw [hp]
            simp only [hop]
          rw [heq]
          refine ⟨⟨hknd, hnem, hinv⟩, ?_, by rw [hnode]; rfl⟩
          intro qid q j hq hj
          rcases (hinv qid q hq).2 j nodeId hj with ⟨c, hc, _, hcp⟩
          rw [hnode] at hc
          obtain rfl : node = c := by simpa using hc
          rw [hp] at hcp
          have : opid = qid := by simpa using hcp
          rw [← this, hop] at hq
          simp at hq
      | some op =>
          by_cases hmem : nodeId ∈ op.children
          · have heq : moveDetach m nodeId node
                = updateChildIndices
                    { m with nodes := (modifyM m.nodes opid
                      (fun p => { p with children := p.children.erase nodeId })) } opid := by
              unfold moveDetach
              rw [hp]
              simp only [hop]
              rw [if_pos hmem]
            rw [heq]
            have hucn : (updateChildIndices
                { m with nodes := (modifyM m.nodes opid
                  (fun p => { p with children := p.children.erase nodeId })) } opid).nodes
                = reindexFrom (modifyM m.nodes opid
                    (fun p => { p with children := p.children.erase nodeId }))
                    (op.children.erase nodeId) 0 := by
              unfold updateChildIndices
              have : getM (modifyM m.nodes opid
                  (fun p => { p with children := p.children.erase nodeId })) opid
                  = some { op with children := op.children.erase nodeId } := by
                rw [getM_modifyM, if_pos rfl, hop]
                rfl
              rw [this]
            refine ⟨WF_removeChild m opid nodeId ⟨hknd, hnem, hinv⟩, ?_, ?_⟩
            · intro qid q j hq hj
              rw [hucn] at hq
              have hch := reindexFrom_children (modifyM m.nodes opid
                  (fun p => { p with children := p.children.erase nodeId }))
                  (op.children.erase nodeId) 0 qid
              rw [hq, getM_modifyM] at hch
              by_cases hqo : qid = opid
              · rw [if_pos hqo, hqo, hop] at hch
                have hqch : q.children = op.children.erase nodeId := by simpa using hch
                rw [hqch] at hj
                have : nodeId ∈ op.children.erase nodeId := List.mem_iff_get?.mpr ⟨j, hj⟩
                rw [(hinv opid op hop).1.mem_erase_iff] at this
                exact this.1 rfl
              · rw [if_neg hqo] at hch
                cases hq0 : getM m.nodes qid with
                | none => rw [hq0] at hch; simp at hch
                | some q0 =>
                    rw [hq0] at hch
                    have hqch : q.children = q0.children := by simpa using hch
                    rw [hqch] at hj
                    rcases (hinv qid q0 hq0).2 j nodeId hj with ⟨c, hc, _, hcp⟩
                    rw [hnode] at hc
                    obtain rfl : node = c := by simpa using hc
                    rw [hp] at hcp
                    exact hqo (by simpa using hcp.symm)
            · rw [hucn, reindexFrom_isSome, getM_modifyM]
              by_cases hno : nodeId = opid
              · rw [if_pos hno, hno, hop]
                rfl
              · rw [if_neg hno, hnode]
                rfl
          · have heq : moveDetach m nodeId node = m := by
              unfold moveDetach
              rw [hp]
              simp only [hop]
              rw [if_neg hmem]
            rw [heq]
            refine ⟨⟨hknd, hnem, hinv⟩, ?_, by rw [hnode]; rfl⟩
            intro qid q j hq hj
            rcases (hinv qid q hq).2 j nodeId hj with ⟨c, hc, _, hcp⟩
            rw [hnode] at hc
            obtain rfl : node = c := by simpa using hc
            rw [hp] at hcp
            have h2 : opid = qid := by simpa using hcp
            subst h2
            rw [hop] at hq
            obtain rfl : op = q := by simpa using hq
            exact hmem (List.mem_iff_get?.mpr ⟨j, hj⟩)

/-- The attach phase of `moveNode` preserves the invariant bundle when
the moved id is listed by no stored node and still resolves. -/
theorem WF_moveAttach (m1 : Model) (nodeId newParentId : String) (newIndex : Option Nat)
    (hwf1 : WF m1.nodes)
    (hnochild : ∀ qid q j, getM m1.nodes qid = some q → ¬ q.children.get? j = some nodeId)
    (hex : (getM m1.nodes nodeId).isSome = true) :
    WF (moveAttach m1 nodeId newParentId newIndex).nodes := by
  obtain ⟨hknd, hnem, hinv⟩ := hwf1
  cases hnp : getM m1.nodes newParentId with
  | none =>
      have heq : moveAttach m1 nodeId newParentId newIndex = m1 := by
        unfold moveAttach
        rw [hnp]
      rw [heq]
      exact ⟨hknd, hnem, hinv⟩
  | some np =>
      rcases Option.isSome_iff_exists.mp hex with ⟨nd0, hnd0⟩
      have hnotin : nodeId ∉ np.children := by
        intro hm
        rcases List.mem_iff_get?.mp hm with ⟨j, hj⟩
        exact hnochild newParentId np j hnp hj
    
      have main : ∀ gadd : TNode → TNode,
          (∀ n, (gadd n).index = n.index ∧ (gadd n).parent = n.parent) →
          ((gadd np).children = spliceIn np.children (newIndex.getD np.children.length) nodeId ∨
            (gadd np).children = np.children ++ [nodeId]) →
          ∀ idx : Nat,
          WF (updateChildIndices
            { m1 with nodes := (modifyM (modifyM m1.nodes newParentId gadd) nodeId
              (fun n => { n with parent := some newParentId, index := some idx })) }
            newParentId).nodes := by
        intro gadd hgadd hgch idx
        refine ⟨?_, ?_, ?_⟩
        · exact keysNodup_updateChildIndices_mk _ _ _ _
            (keysNodup_modifyM _ _ _ (keysNodup_modifyM _ _ _ hknd))
        · exact noEmpty_updateChildIndices_mk _ _ _ _
            (noEmpty_modifyM _ _ _ (noEmpty_modifyM _ _ _ hnem))
        · apply storeInv_updateChildIndices
          · intro qid q hq hqp
            have hq2 : getM (modifyM (modifyM m1.nodes newParentId gadd) nodeId
                (fun n => { n with parent := some newParentId, index := some idx })) qid
                = some q := hq
            rw [getM_modifyM, getM_modifyM] at hq2
            have hqs : ∃ q0, getM m1.nodes qid = some q0 ∧ q.children = q0.children := by
              by_cases hqn : qid = nodeId
              · rw [if_pos hqn, if_neg hqp] at hq2
                cases hq0 : getM m1.nodes qid with
                | none => rw [hq0] at hq2; simp at hq2
                | some q0 =>
                    rw [hq0] at hq2
                    refine ⟨q0, rfl, ?_⟩
                    have : ({ q0 with parent := some newParentId, index := some idx } : TNode) = q := by
                      simpa using hq2
                    rw [← this]
              · rw [if_neg hqn, if_neg hqp] at hq2
                exact ⟨q, hq2, rfl⟩
            rcases hqs with ⟨q0, hq0, hqch⟩
            have hco := hinv qid q0 hq0
            rw [show childrenOk (modifyM (modifyM m1.nodes newParentId gadd) nodeId
                (fun n => { n with parent := some newParentId, index := some idx })) qid q
              = (q.children.Nodup ∧ ∀ i cid, q.children.get? i = some cid →
                  childOk (modifyM (modifyM m1.nodes newParentId gadd) nodeId
                    (fun n => { n with parent := some newParentId, index := some idx })) qid i cid)
              from rfl]
            rw [hqch]
            refine ⟨hco.1, fun j cid hj => ?_⟩
            have hcn : cid ≠ nodeId := fun he => hnochild qid q0 j hq0 (he ▸ hj)
            refine (childOk_modify_at_ne _ nodeId _ qid j cid hcn).mpr ?_
            exact (childOk_modify_children m1.nodes newParentId gadd hgadd qid j cid).mpr
              (hco.2 j cid hj)
          · intro p' hp'
            have hnodup : (gadd np).children.Nodup := by
              rcases hgch with h | h
              · rw [h]
                exact nodup_spliceIn _ _ _ hnotin (hinv newParentId np hnp).1
              · rw [h, List.nodup_append]
                exact ⟨(hinv newParentId np hnp).1, List.nodup_singleton nodeId,
                  fun a ha hb => hnotin ((List.mem_singleton.mp hb) ▸ ha)⟩
            have hmemch : ∀ cid, cid ∈ (gadd np).children → cid = nodeId ∨ cid ∈ np.children := by
              intro cid hcid
              rcases hgch with h | h
              · rw [h] at hcid
                exact (mem_spliceIn _ _ _ _).mp hcid
              · rw [h] at hcid
                rcases List.mem_append.mp hcid with h2 | h2
                · exact Or.inr h2
                · exact Or.inl (List.mem_singleton.mp h2)
            have hp2 : getM (modifyM (modifyM m1.nodes newParentId gadd) nodeId
                (fun n => { n with parent := some newParentId, index := some idx })) newParentId
                = some p' := hp'
            rw [getM_modifyM, getM_modifyM] at hp2
            have hpch : p'.children = (gadd np).children := by
              by_cases hpn : newParentId = nodeId
              · rw [if_pos hpn, if_pos rfl, hnp] at hp2
                have : ({ gadd np with parent := some newParentId, index := some idx } : TNode) = p' := by
                  simpa using hp2
                rw [← this]
              · rw [if_neg hpn, if_pos rfl, hnp] at hp2
                obtain rfl : gadd np = p' := by simpa using hp2
                rfl
            constructor
            · rw [hpch]
              exact hnodup
            · intro cid hcid
              rw [hpch] at hcid
              rcases hmemch cid hcid with hce | hcm
              · rw [hce]
                by_cases hpn : nodeId = newParentId
                · refine ⟨{ gadd nd0 with parent := some newParentId, index := some idx }, ?_, rfl⟩
                  rw [getM_modifyM, if_pos rfl, getM_modifyM, if_pos hpn, hnd0]
                  rfl
                · refine ⟨{ nd0 with parent := some newParentId, index := some idx }, ?_, rfl⟩
                  rw [getM_modifyM, if_pos rfl, getM_modifyM, if_neg hpn, hnd0]
                  rfl
              · rcases List.mem_iff_get?.mp hcm with ⟨j, hj⟩
                rcases (hinv newParentId np hnp).2 j cid hj with ⟨c, hc, _, hcp⟩
                have hcn : cid ≠ nodeId := fun he => hnochild newParentId np j hnp (he ▸ hj)
                by_cases hcpn : cid = newParentId
                · refine ⟨gadd c, ?_, (hgadd c).2.trans hcp⟩
                  rw [getM_modifyM, if_neg hcn, getM_modifyM, if_pos hcpn, hcpn, hnp]
                  rw [hcpn, hnp] at hc
                  obtain rfl : np = c := by simpa using hc
                  rfl
                · refine ⟨c, ?_, hcp⟩
                  rw [getM_modifyM, if_neg hcn, getM_modifyM, if_neg hcpn]
                  exact hc
      cases hni : newIndex with
      | some i =>
          have heq : moveAttach m1 nodeId newParentId (some i)
              = updateChildIndices
                  { m1 with nodes := (modifyM (modifyM m1.nodes newParentId
                      (fun p => { p with children := spliceIn p.children i nodeId })) nodeId
                      (fun n => { n with parent := some newParentId, index := some i })) }
                  newParentId := by
            unfold moveAttach
            rw [hnp]
            rfl
          rw [heq]
          exact main (fun p => { p with children := spliceIn p.children i nodeId })
            (fun n => ⟨rfl, rfl⟩) (Or.inl (by rw [hni]; rfl)) i
      | none =>
          have heq : moveAttach m1 nodeId newParentId none
              = updateChildIndices
                  { m1 with nodes := (modifyM (modifyM m1.nodes newParentId
                      (fun p => { p with children := p.children ++ [nodeId] })) nodeId
                      (fun n => { n with parent := some newParentId, index := some np.children.length })) }
                  newParentId := by
            unfold moveAttach
            rw [hnp]
            rfl
          rw [heq]
          exact main (fun p => { p with children := p.children ++ [nodeId] })
            (fun n => ⟨rfl, rfl⟩) (Or.inr rfl) np.children.length

/-- `moveNode` preserves the invariant bundle. -/
theorem WF_moveNode (m : Model) (nodeId newParentId : String) (newIndex : Option Nat)
    (hwf : WF m.nodes) : WF (moveNode m nodeId newParentId newIndex).nodes := by
  cases hnode : getM m.nodes nodeId with
  | none =>
      have heq : moveNode m nodeId newParentId newIndex = m := by
        unfold moveNode
        rw [hnode]
      rw [heq]
      exact hwf
  | some node =>
      have heq : moveNode m nodeId newParentId newIndex
          = moveAttach (moveDetach m nodeId node) nodeId newParentId newIndex := by
        unfold moveNode
        rw [hnode]
      rw [heq]
      rcases WF_moveDetach m nodeId node hwf hnode with ⟨h1, h2, h3⟩
      exact WF_moveAttach _ nodeId newParentId newIndex h1 h2 h3

/-- Keys with a stored entry are nonempty strings in a store without
empty keys. -/
theorem key_ne_empty (nm : NodeMap) (k : String) (v : TNode)
    (hne : noEmptyKey nm) (h : getM nm k = some v) : k ≠ "" :=
  hne (k, v) (mem_of_getM nm k v h)

/-- Reindexing never changes any node's `parent` field (model level). -/
theorem parentStable_updateChildIndices (m : Model) (pid x : String) (c' : TNode)
    (h : getM (updateChildIndices m pid).nodes x = some c') :
    ∃ c, getM m.nodes x = some c ∧ c'.parent = c.parent := by
  unfold updateChildIndices at h
  cases hp : getM m.nodes pid with
  | none =>
      rw [hp] at h
      exact ⟨c', h, rfl⟩
  | some p =>
      rw [hp] at h
      have hpar := reindexFrom_parent m.nodes p.children 0 x
      rw [h] at hpar
      cases hc : getM m.nodes x with
      | none => rw [hc] at hpar; simp at hpar
      | some c =>
          rw [hc] at hpar
          exact ⟨c, rfl, by simpa using hpar⟩

/-- The detach step never changes any node's `parent` field. -/
theorem parentStable_detachChild (m1 : Model) (nodeId : String) (po : Option String)
    (x : String) (c' : TNode)
    (h : getM (detachChild m1 nodeId po).nodes x = some c') :
    ∃ c, getM m1.nodes x = some c ∧ c'.parent = c.parent := by
  cases po with
  | none => exact ⟨c', h, rfl⟩
  | some pid =>
      by_cases hpe : pid = ""
      · have heq : detachChild m1 nodeId (some pid) = m1 := by
          simp only [detachChild]
          rw [if_pos hpe]
        rw [heq] at h
        exact ⟨c', h, rfl⟩
      · cases hp : getM m1.nodes pid with
        | none =>
            have heq : detachChild m1 nodeId (some pid) = m1 := by
              simp only [detachChild]
              rw [if_neg hpe]
              simp only [hp]
            rw [heq] at h
            exact ⟨c', h, rfl⟩
        | some p =>
            by_cases hmem : nodeId ∈ p.children
            · have heq : detachChild m1 nodeId (some pid)
                  = updateChildIndices
                      { m1 with nodes := (modifyM m1.nodes pid
                        (fun q => { q with children := q.children.erase nodeId })) } pid := by
                simp only [detachChild]
                rw [if_neg hpe]
                simp only [hp]
                rw [if_pos hmem]
              rw [heq] at h
              rcases parentStable_updateChildIndices _ pid x c' h with ⟨c1, hc1, hp1⟩
              have hc2 : getM (modifyM m1.nodes pid
                  (fun q => { q with children := q.children.erase nodeId })) x = some c1 := hc1
              rw [getM_modifyM] at hc2
              by_cases hxp : x = pid
              · rw [if_pos hxp] at hc2
                cases hc0 : getM m1.nodes x with
                | none => rw [hc0] at hc2; simp at hc2
                | some c0 =>
                    rw [hc0] at hc2
                    obtain rfl : ({ c0 with children := c0.children.erase nodeId } : TNode) = c1 := by
                      simpa using hc2
                    exact ⟨c0, rfl, hp1⟩
              · rw [if_neg hxp] at hc2
                exact ⟨c1, hc2, hp1⟩
            · have heq : detachChild m1 nodeId (some pid) = m1 := by
                simp only [detachChild]
                rw [if_neg hpe]
                simp only [hp]
                rw [if_neg hmem]
              rw [heq] at h
              exact ⟨c', h, rfl⟩

/-- Deletion never changes a surviving node's `parent` field. -/
theorem parentStable_deleteNodeFuel : ∀ (fuel : Nat) (m : Model) (nid x : String) (c' : TNode),
    getM (deleteNodeFuel fuel m nid).nodes x = some c' →
    ∃ c, getM m.nodes x = some c ∧ c'.parent = c.parent := by
  intro fuel
  induction fuel with
  | zero => exact fun m nid x c' h => ⟨c', h, rfl⟩
  | succ fuel ih =>
      intro m nid x c' h
      cases hn : getM m.nodes nid with
      | none =>
          have heq : deleteNodeFuel (fuel + 1) m nid = m := by
            unfold deleteNodeFuel
            rw [hn]
          rw [heq] at h
          exact ⟨c', h, rfl⟩
      | some node =>
          have heq : deleteNodeFuel (fuel + 1) m nid
              = { (detachChild (node.children.foldl
                    (fun acc cid => deleteNodeFuel fuel acc cid) m) nid node.parent) with
                  nodes := eraseM (detachChild (node.children.foldl
                    (fun acc cid => deleteNodeFuel fuel acc cid) m) nid node.parent).nodes nid } := by
            conv_lhs => unfold deleteNodeFuel
            rw [hn]
          rw [heq] at h
          have h2 : getM (eraseM (detachChild (node.children.foldl
              (fun acc cid => deleteNodeFuel fuel acc cid) m) nid node.parent).nodes nid) x
              = some c' := h
          rw [getM_eraseM] at h2
          by_cases hxn : x = nid
          · rw [if_pos hxn] at h2
            simp at h2
          · rw [if_neg hxn] at h2
            rcases parentStable_detachChild _ nid node.parent x c' h2 with ⟨c1, hc1, hp1⟩
            have hfold : ∀ (cs : List String) (m0 : Model) (c1 : TNode),
                getM (cs.foldl (fun acc cid => deleteNodeFuel fuel acc cid) m0).nodes x = some c1 →
                ∃ c, getM m0.nodes x = some c ∧ c1.parent = c.parent := by
              intro cs
              induction cs with
              | nil => exact fun m0 c1 h => ⟨c1, h, rfl⟩
              | cons d ds ihd =>
                  intro m0 c1 h
                  rcases ihd (deleteNodeFuel fuel m0 d) c1 h with ⟨c2, hc2, hp2⟩
                  rcases ih m0 d x c2 hc2 with ⟨c3, hc3, hp3⟩
                  exact ⟨c3, hc3, hp2.trans hp3⟩
            rcases hfold node.children m c1 hc1 with ⟨c, hc, hp2⟩
            exact ⟨c, hc, hp1.trans hp2⟩

/-- Fold version of `parentStable_deleteNodeFuel` over a children list. -/
theorem parentStable_deleteNodeFuel_fold (fuel : Nat) (cs : List String) (m : Model)
    (x : String) (c' : TNode)
    (h : getM (cs.foldl (fun acc cid => deleteNodeFuel fuel acc cid) m).nodes x = some c') :
    ∃ c, getM m.nodes x = some c ∧ c'.parent = c.parent := by
  induction cs generalizing m c' with
  | nil => exact ⟨c', h, rfl⟩
  | cons d ds ihd =>
      rcases ihd (deleteNodeFuel fuel m d) c' h with ⟨c2, hc2, hp2⟩
      rcases parentStable_deleteNodeFuel fuel m d x c2 hc2 with ⟨c3, hc3, hp3⟩
      exact ⟨c3, hc3, hp2.trans hp3⟩

/-- Erasing an id that no children array lists preserves the store
invariant. -/
theorem storeInv_eraseM (nm : NodeMap) (nid : String)
    (hinv : StoreInv nm)
    (hno : ∀ qid q j, getM nm qid = some q → ¬ q.children.get? j = some nid) :
    StoreInv (eraseM nm nid) := by
  intro qid q hq
  rw [getM_eraseM] at hq
  by_cases hqn : qid = nid
  · rw [if_pos hqn] at hq
    simp at hq
  · rw [if_neg hqn] at hq
    have hco := hinv qid q hq
    refine ⟨hco.1, fun j cid hj => ?_⟩
    rcases hco.2 j cid hj with ⟨c, hc, hidx, hcp⟩
    have hcn : cid ≠ nid := fun he => hno qid q j hq (he ▸ hj)
    exact ⟨c, by rw [getM_eraseM, if_neg hcn]; exact hc, hidx, hcp⟩

/-- The detach step preserves the invariant bundle. -/
theorem WF_detachChild (m1 : Model) (nodeId : String) (po : Option String)
    (hwf : WF m1.nodes) : WF (detachChild m1 nodeId po).nodes := by
  cases po with
  | none => exact hwf
  | some pid =>
      by_cases hpe : pid = ""
      · have heq : detachChild m1 nodeId (some pid) = m1 := by
          simp only [detachChild]
          rw [if_pos hpe]
        rw [heq]
        exact hwf
      · cases hp : getM m1.nodes pid with
        | none =>
            have heq : detachChild m1 nodeId (some pid) = m1 := by
              simp only [detachChild]
              rw [if_neg hpe]
              simp only [hp]
            rw [heq]
            exact hwf
        | some p =>
            by_cases hmem : nodeId ∈ p.children
            · have heq : detachChild m1 nodeId (some pid)
                  = updateChildIndices
                      { m1 with nodes := (modifyM m1.nodes pid
                        (fun q => { q with children := q.children.erase nodeId })) } pid := by
                simp only [detachChild]
                rw [if_neg hpe]
                simp only [hp]
                rw [if_pos hmem]
              rw [heq]
              exact WF_removeChild m1 pid nodeId hwf
            · have heq : detachChild m1 nodeId (some pid) = m1 := by
                simp only [detachChild]
                rw [if_neg hpe]
                simp only [hp]
                rw [if_neg hmem]
              rw [heq]
              exact hwf

/-- After the detach step of a delete, no stored node lists the deleted
id among its children (provided the deleted node's recorded parent is
`parentOpt` and the store is well formed). -/
theorem nochild_detachChild (m1 : Model) (nodeId : String) (po : Option String)
    (node1 : TNode)
    (hwf : WF m1.nodes) (hn1 : getM m1.nodes nodeId = some node1)
    (hpo : node1.parent = po) :
    ∀ qid q j, getM (detachChild m1 nodeId po).nodes qid = some q →
      ¬ q.children.get? j = some nodeId := by
  obtain ⟨hknd, hnem, hinv⟩ := hwf
  have base : ∀ qid q j, getM m1.nodes qid = some q → q.children.get? j = some nodeId →
      node1.parent = some qid := by
    intro qid q j hq hj
    rcases (hinv qid q hq).2 j nodeId hj with ⟨c, hc, _, hcp⟩
    rw [hn1] at hc
    obtain rfl : node1 = c := by simpa using hc
    exact hcp
  cases po with
  | none =>
      intro qid q j hq hj
      have := base qid q j hq hj
      rw [hpo] at this
      simp at this
  | some pid =>
      by_cases hpe : pid = ""
      · have heq : detachChild m1 nodeId (some pid) = m1 := by
          simp only [detachChild]
          rw [if_pos hpe]
        rw [heq]
        intro qid q j hq hj
        have h2 := base qid q j hq hj
        rw [hpo] at h2
        have : pid = qid := by simpa using h2
        exact key_ne_empty m1.nodes qid q hnem hq (by rw [← this, hpe])
      · cases hp : getM m1.nodes pid with
        | none =>
            have heq : detachChild m1 nodeId (some pid) = m1 := by
              simp only [detachChild]
              rw [if_neg hpe]
              simp only [hp]
            rw [heq]
            intro qid q j hq hj
            have h2 := base qid q j hq hj
            rw [hpo] at h2
            have h3 : pid = qid := by simpa using h2
            rw [← h3, hp] at hq
            simp at hq
        | some p =>
            by_cases hmem : nodeId ∈ p.children
            · have heq : detachChild m1 nodeId (some pid)
                  = updateChildIndices
                      { m1 with nodes := (modifyM m1.nodes pid
                        (fun q => { q with children := q.children.erase nodeId })) } pid := by
                simp only [detachChild]
                rw [if_neg hpe]
                simp only [hp]
                rw [if_pos hmem]
              rw [heq]
              intro qid q j hq hj
              have hucn : (updateChildIndices
                  { m1 with nodes := (modifyM m1.nodes pid
                    (fun q => { q with children := q.children.erase nodeId })) } pid).nodes
                  = reindexFrom (modifyM m1.nodes pid
                      (fun q => { q with children := q.children.erase nodeId }))
                      (p.children.erase nodeId) 0 := by
                unfold updateChildIndices
                have : getM (modifyM m1.nodes pid
                    (fun q => { q with children := q.children.erase nodeId })) pid
                    = some { p with children := p.children.erase nodeId } := by
                  rw [getM_modifyM, if_pos rfl, hp]
                  rfl
                rw [this]
              rw [hucn] at hq
              have hch := reindexFrom_children (modifyM m1.nodes pid
                  (fun q => { q with children := q.children.erase nodeId }))
                  (p.children.erase nodeId) 0 qid
              rw [hq, getM_modifyM] at hch
              by_cases hqo : qid = pid
              · rw [if_pos hqo, hqo, hp] at hch
                have hqch : q.children = p.children.erase nodeId := by simpa using hch
                rw [hqch] at hj
                have : nodeId ∈ p.children.erase nodeId := List.mem_iff_get?.mpr ⟨j, hj⟩
                rw [(hinv pid p hp).1.mem_erase_iff] at this
                exact this.1 rfl
              · rw [if_neg hqo] at hch
                cases hq0 : getM m1.nodes qid with
                | none => rw [hq0] at hch; simp at hch
                | some q0 =>
                    rw [hq0] at hch
                    have hqch : q.children = q0.children := by simpa using hch
                    rw [hqch] at hj
                    have h2 := base qid q0 j hq0 hj
                    rw [hpo] at h2
                    exact hqo (by simpa using h2.symm)
            · have heq : detachChild m1 nodeId (some pid) = m1 := by
                simp only [detachChild]
                rw [if_neg hpe]
                simp only [hp]
                rw [if_neg hmem]
              rw [heq]
              intro qid q j hq hj
              have h2 := base qid q j hq hj
              rw [hpo] at h2
              have h3 : pid = qid := by simpa using h2
              subst h3
              rw [hp] at hq
              obtain rfl : p = q := by simpa using hq
              exact hmem (List.mem_iff_get?.mpr ⟨j, hj⟩)

/-- Deletion preserves the invariant bundle, at every recursion budget. -/
theorem WF_deleteNodeFuel : ∀ (fuel : Nat) (m : Model) (nid : String),
    WF m.nodes → WF (deleteNodeFuel fuel m nid).nodes := by
  intro fuel
  induction fuel with
  | zero => exact fun m nid h => h
  | succ fuel ih =>
      intro m nid hwf
      cases hn : getM m.nodes nid with
      | none =>
          have heq : deleteNodeFuel (fuel + 1) m nid = m := by
            unfold deleteNodeFuel
            rw [hn]
          rw [heq]
          exact hwf
      | some node =>
          have heq : deleteNodeFuel (fuel + 1) m nid
              = { (detachChild (node.children.foldl
                    (fun acc cid => deleteNodeFuel fuel acc cid) m) nid node.parent) with
                  nodes := eraseM (detachChild (node.children.foldl
                    (fun acc cid => deleteNodeFuel fuel acc cid) m) nid node.parent).nodes nid } := by
            conv_lhs => unfold deleteNodeFuel
            rw [hn]
          rw [heq]
          have hwf1 : WF (node.children.foldl
              (fun acc cid => deleteNodeFuel fuel acc cid) m).nodes := by
            have hfold : ∀ (cs : List String) (m0 : Model), WF m0.nodes →
                WF (cs.foldl (fun acc cid => deleteNodeFuel fuel acc cid) m0).nodes := by
              intro cs
              induction cs with
              | nil => exact fun m0 h => h
              | cons d ds ihd => exact fun m0 h => ihd (deleteNodeFuel fuel m0 d) (ih m0 d h)
            exact hfold node.children m hwf
          set m1 : Model := node.children.foldl (fun acc cid => deleteNodeFuel fuel acc cid) m with hm1
          cases hn1 : getM m1.nodes nid with
          | none =>
              have hdet : detachChild m1 nid node.parent = m1 ∨
                  (detachChild m1 nid node.parent).nodes = m1.nodes ∨ True := Or.inr (Or.inr trivial)
              have hwf2 : WF (detachChild m1 nid node.parent).nodes :=
                WF_detachChild m1 nid node.parent hwf1
              refine ⟨keysNodup_eraseM _ nid hwf2.1, noEmpty_eraseM _ nid hwf2.2.1, ?_⟩
              apply storeInv_eraseM _ nid hwf2.2.2
              intro qid q j hq hj
              rcases (hwf2.2.2 qid q hq).2 j nid hj with ⟨c, hc, _, _⟩
              rcases parentStable_detachChild m1 nid node.parent nid c hc with ⟨c0, hc0, _⟩
              rw [hn1] at hc0
              simp at hc0
          | some node1 =>
              have hpar1 : node1.parent = node.parent := by
                rcases parentStable_deleteNodeFuel_fold fuel node.children m nid node1 hn1 with ⟨c, hc, hp⟩
                rw [hn] at hc
                obtain rfl : node = c := by simpa using hc
                exact hp
              have hwf2 : WF (detachChild m1 nid node.parent).nodes :=
                WF_detachChild m1 nid node.parent hwf1
              have hno2 := nochild_detachChild m1 nid node.parent node1 hwf1 hn1 hpar1
              exact ⟨keysNodup_eraseM _ nid hwf2.1, noEmpty_eraseM _ nid hwf2.2.1,
                storeInv_eraseM _ nid hwf2.2.2 hno2⟩

/-- `deleteNode` preserves the invariant bundle. -/
theorem WF_deleteNode (m : Model) (nid : String) (hwf : WF m.nodes) :
    WF (deleteNode m nid).nodes :=
  WF_deleteNodeFuel (m.nodes.length + 1) m nid hwf

/-- The executable invariant check agrees with the invariant bundle. -/
theorem invB_iff (m : Model) : invB m = true ↔ WF m.nodes := by
  unfold invB WF
  simp only [Bool.and_eq_true, List.all_eq_true, decide_eq_true_eq]
  constructor
  · rintro ⟨⟨h1, h2⟩, h3⟩
    refine ⟨h1, fun p hp => by simpa [bne_iff_ne] using h2 p hp, ?_⟩
    intro pid p hp
    have hmem := mem_of_getM m.nodes pid p hp
    rcases h3 (pid, p) hmem with ⟨hnd, hok⟩
    refine ⟨hnd, fun i cid hi => ?_⟩
    have hok2 := hok (i, cid) (List.mem_enum_iff_get?.mpr hi)
    unfold childOkB at hok2
    cases hc : getM m.nodes cid with
    | none => rw [hc] at hok2; simp at hok2
    | some c =>
        rw [hc] at hok2
        rw [Bool.and_eq_true, beq_iff_eq, beq_iff_eq] at hok2
        exact ⟨c, hc, hok2.1, hok2.2⟩
  · rintro ⟨h1, h2, h3⟩
    refine ⟨⟨h1, fun p hp => by simpa [bne_iff_ne] using h2 p hp⟩, ?_⟩
    intro p hp
    have hget : getM m.nodes p.1 = some p.2 := getM_of_mem m.nodes p.1 p.2 h1 hp
    rcases h3 p.1 p.2 hget with ⟨hnd, hok⟩
    refine ⟨hnd, fun ic hic => ?_⟩
    rcases hok ic.1 ic.2 (List.mem_enum_iff_get?.mp hic) with ⟨c, hc, hidx, hpar⟩
    unfold childOkB
    rw [hc, Bool.and_eq_true, beq_iff_eq, beq_iff_eq]
    exact ⟨hidx, hpar⟩

/-- Admissible call sequences preserve the invariant bundle. -/
theorem okOps_WF (m : Model) (ops : List Op) (hwf : WF m.nodes)
    (hok : okOps m ops = true) : WF (applyOps m ops).nodes := by
  induction ops generalizing m with
  | nil => exact hwf
  | cons op rest ih =>
      have hfold : applyOps m (op :: rest) = applyOps (applyOp m op) rest := rfl
      rw [hfold]
      have hok2 : okOp m op = true ∧ okOps (applyOp m op) rest = true := by
        have : okOps m (op :: rest) = (okOp m op && okOps (applyOp m op) rest) := rfl
        rw [this, Bool.and_eq_true] at hok
        exact hok
      refine ih (applyOp m op) ?_ hok2.2
      cases op with
      | add p t i f n =>
          have hfr : (getM m.nodes f).isNone = true ∧ (f != "") = true := by
            have : okOp m (Op.add p t i f n) = ((getM m.nodes f).isNone && f != "") := rfl
            rw [this, Bool.and_eq_true] at hok2
            exact hok2.1
          exact WF_addNode m p t i f n hwf (Option.isNone_iff_eq_none.mp hfr.1)
            (bne_iff_ne.mp hfr.2)
      | move n p i => exact WF_moveNode m n p i hwf
      | del n => exact WF_deleteNode m n hwf

/-- C2 (counterexample): the claim's parent-pointer formulation fails.
From the well-formed two-node store, the admissible call
`moveNode "n1" "zzz" none` (new parent unresolvable) leaves `n1` with a
`parent` field naming `root-1` even though `root-1` no longer lists it,
so `parent.childIds[node.index] === node.id` is violated. -/
theorem claim2_counterexample :
    invB exTwo = true ∧ okOps exTwo [Op.move "n1" "zzz" none] = true ∧
    parentPtrOkB (applyOps exTwo [Op.move "n1" "zzz" none]) = false := by
  exact ⟨by decide, by decide, by decide⟩

/-- C2 (amended): for every admissible sequence of `addNode` / `moveNode`
/ `deleteNode` calls from a store satisfying the invariants, afterwards
every node's children array is duplicate-free and for every position `i`
the child at `children[i]` exists with `index = i` and `parent` naming
the owner (the `invB` bundle).  The parent-pointer clause of the original
claim is dropped: a move to an unresolvable parent detaches the node but
keeps its stale `parent` field. -/
theorem claim2_invariant_preserved (m : Model) (ops : List Op)
    (h1 : invB m = true) (h2 : okOps m ops = true) :
    invB (applyOps m ops) = true :=
  (invB_iff _).mpr (okOps_WF m ops ((invB_iff m).mp h1) h2)

/-- Witness for the C2 amended theorem at a concrete store and sequence. -/
theorem claim2_witness :
    invB exRoot = true ∧ okOps exRoot claim2Ops = true ∧
    invB (applyOps exRoot claim2Ops) = true :=
  ⟨by decide, by decide, claim2_invariant_preserved exRoot claim2Ops (by decide) (by decide)⟩

/-- C3 (counterexample): `addNode` with an unresolvable `parentId` does
not fail and does register the new node: in the source the node is
`set` into the map before the parent lookup, and the unresolved-parent
branch simply returns it. -/
theorem claim3_counterexample :
    getM exRoot.nodes "missing" = none ∧
    (getNode (addNode exRoot "missing" (some "x") none "n9" "2025-02-01") "n9").isSome = true := by
  exact ⟨by decide, by decide⟩

/-- C3 (amended): when `parentId` does not resolve, `addNode` still
creates and registers the new node (with its `parent` field naming the
missing parent), returns without error, and changes no other entry. -/
theorem claim3_addNode_orphan (m : Model) (parentId : String) (title : Option String)
    (index : Option Nat) (freshId now : String)
    (hpar : getM m.nodes parentId = none) (hne : freshId ≠ parentId) :
    getNode (addNode m parentId title index freshId now) freshId =
      some { id := freshId, type := "Node", title := some (title.getD ""), created := some now,
             description := none, parent := some parentId, index := index, children := [] } ∧
    ∀ x, x ≠ freshId → getNode (addNode m parentId title index freshId now) x = getNode m x := by
  have h1 : getM (setM m.nodes freshId
      { id := freshId, type := "Node", title := some (title.getD ""), created := some now,
        description := none, parent := some parentId, index := index, children := [] })
      parentId = none := by
    rw [getM_setM, if_neg (fun he => hne he.symm)]
    exact hpar
  have heq : addNode m parentId title index freshId now =
      { m with nodes := (setM m.nodes freshId
          { id := freshId, type := "Node", title := some (title.getD ""), created := some now,
            description := none, parent := some parentId, index := index, children := [] }) } := by
    simp only [addNode]
    rw [h1]
  rw [heq]
  constructor
  · show getM (setM m.nodes freshId _) freshId = _
    rw [getM_setM, if_pos rfl]
  · intro x hx
    show getM (setM m.nodes freshId _) x = getM m.nodes x
    rw [getM_setM, if_neg hx]

/-- Witness for the C3 amended theorem at a concrete store. -/
theorem claim3_witness :
    getNode (addNode exRoot "missing" (some "x") none "n9" "2025-02-01") "n9" =
      some { id := "n9", type := "Node", title := some "x", created := some "2025-02-01", description := none, parent := some "missing", index := none, children := [] } ∧
    getNode (addNode exRoot "missing" (some "x") none "n9" "2025-02-01") "root-1" =
      getNode exRoot "root-1" :=
  ⟨(claim3_addNode_orphan exRoot "missing" (some "x") none "n9" "2025-02-01"
      (by decide) (by decide)).1,
   (claim3_addNode_orphan exRoot "missing" (some "x") none "n9" "2025-02-01"
      (by decide) (by decide)).2 "root-1" (by decide)⟩

/-- C4 (counterexample): `updateNode` is a raw `Object.assign`, so a
`properties` object carrying `index` (likewise `id`, `parent` or
`children`) does overwrite that field: updating `n1` with
`{ index: 99 }` changes its stored index from 0 to 99. -/
theorem claim4_counterexample :
    (getNode exOne "n1").map (fun n => n.index) = some (some 0) ∧
    (getNode (updateNode exOne "n1" { index := some (some 99) }) "n1").map (fun n => n.index) =
      some (some 99) := by
  exact ⟨by decide, by decide⟩

/-- C4 (amended): on an existing node, `updateNode` replaces the node by
`Object.assign(node, properties)` — every provided field is overwritten,
including `id`, `parent`, `index` and `children` — and leaves every other
entry unchanged. -/
theorem claim4_updateNode_assign (m : Model) (nodeId : String) (props : NodePatch) (node : TNode)
    (hn : getM m.nodes nodeId = some node) :
    getNode (updateNode m nodeId props) nodeId = some (applyPatch node props) ∧
    ∀ x, x ≠ nodeId → getNode (updateNode m nodeId props) x = getNode m x := by
  have heq : updateNode m nodeId props =
      { m with nodes := modifyM m.nodes nodeId (fun n => applyPatch n props) } := by
    unfold updateNode
    rw [hn]
  rw [heq]
  constructor
  · show getM (modifyM m.nodes nodeId (fun n => applyPatch n props)) nodeId =
      some (applyPatch node props)
    rw [getM_modifyM, if_pos rfl, hn]
    rfl
  · intro x hx
    show getM (modifyM m.nodes nodeId (fun n => applyPatch n props)) x = getM m.nodes x
    rw [getM_modifyM, if_neg hx]

/-- Witness for the C4 amended theorem: the merge at a concrete store. -/
theorem claim4_witness :
    getNode (updateNode exOne "n1" { title := some (some "t2") }) "n1" =
      some (applyPatch { id := "n1", type := "Node", title := some "a", created := some "2025-01-01T00:00:00Z", description := none, parent := some "root-1", index := some 0, children := [] } { title := some (some "t2") }) ∧
    getNode (updateNode exOne "n1" { title := some (some "t2") }) "root-1" =
      getNode exOne "root-1" :=
  ⟨(claim4_updateNode_assign exOne "n1" { title := some (some "t2") }
      { id := "n1", type := "Node", title := some "a", created := some "2025-01-01T00:00:00Z", description := none, parent := some "root-1", index := some 0, children := [] } (by decide)).1,
   (claim4_updateNode_assign exOne "n1" { title := some (some "t2") }
      { id := "n1", type := "Node", title := some "a", created := some "2025-01-01T00:00:00Z", description := none, parent := some "root-1", index := some 0, children := [] } (by decide)).2
     "root-1" (by decide)⟩

/-- C8 (counterexample): `createEmptyModel` never checks for an existing
root; calling it on a store that already holds a `RootNode` registers a
second one, so the one-Root property fails. -/
theorem claim8_counterexample :
    rootNodeCount exRoot = 1 ∧
    (createEmptyModel exRoot "root-2").rootId = some "root-2" ∧
    rootNodeCount (createEmptyModel exRoot "root-2") = 2 := by
  exact ⟨by decide, by decide, by decide⟩

/-- C8 (amended): `createEmptyModel` with a fresh id never fails: it
registers one new parentless `RootNode`, repoints `rootId` at it, and
(since the store is not cleared) increases the `RootNode` count by one. -/
theorem claim8_createEmptyModel (m : Model) (rid : String)
    (hfresh : getM m.nodes rid = none) :
    (createEmptyModel m rid).rootId = some rid ∧
    getNode (createEmptyModel m rid) rid =
      some { id := rid, type := "RootNode", title := none, created := none,
             description := none, parent := none, index := none, children := [] } ∧
    rootNodeCount (createEmptyModel m rid) = rootNodeCount m + 1 := by
  have hset : setM m.nodes rid { id := rid, type := "RootNode", title := none, created := none, description := none, parent := none, index := none, children := [] } =
      m.nodes ++ [(rid, { id := rid, type := "RootNode", title := none, created := none, description := none, parent := none, index := none, children := [] })] :=
    setM_fresh_eq _ _ _ hfresh
  refine ⟨rfl, ?_, ?_⟩
  · show getM (setM m.nodes rid _) rid = _
    rw [getM_setM, if_pos rfl]
  · show ((setM m.nodes rid _).filter _).length = _
    rw [hset, List.filter_append]
    simp [rootNodeCount]

/-- Witness for the C8 amended theorem at a concrete store. -/
theorem claim8_witness :
    (createEmptyModel exRoot "root-2").rootId = some "root-2" ∧
    rootNodeCount (createEmptyModel exRoot "root-2") = rootNodeCount exRoot + 1 :=
  ⟨(claim8_createEmptyModel exRoot "root-2" (by decide)).1,
   (claim8_createEmptyModel exRoot "root-2" (by decide)).2.2⟩

/-- C9: the flat-load rebuild is two-pass (register all nodes, then link
children through resolved parent ids and sort by index): on a bindings
list with one `RootNode` binding and one `Node` binding whose parent URI
resolves to the root, the rebuilt root's children are exactly the second
node's id, and the second node's parent is the root's id. -/
theorem claim9_two_pass_load :
    (processLoadedData { baseUri := baseUriConfig } claim9Data).toOption.bind
        (fun m => (getRootNode m).map (fun n => n.children)) = some ["n2"] ∧
    (processLoadedData { baseUri := baseUriConfig } claim9Data).toOption.bind
        (fun m => (getNode m "n2").map (fun n => n.parent)) = some (some "root-1") := by
  exact ⟨by decide, by decide⟩

/-- A throw inside `processLoadedData` always leaves the node map
cleared (the clearing happens before the first pass). -/
theorem processLoadedData_error (m : Model) (d : SparqlData) (e : Model)
    (h : processLoadedData m d = Except.error e) : e.nodes = [] := by
  unfold processLoadedData at h
  split at h
  · simp only [Except.error.injEq] at h
    rw [← h]
  · exact absurd h (by simp)

/-- When the stored parent resolves, `updateChildIndices` reindexes its
children array in place. -/
theorem nodes_updateChildIndices (m : Model) (pid : String) (p : TNode)
    (hp : getM m.nodes pid = some p) :
    (updateChildIndices m pid).nodes = reindexFrom m.nodes p.children 0 := by
  unfold updateChildIndices
  rw [hp]

/-- C7: when the load step yields nothing or its payload cannot be
processed (a throw inside `processLoadedData`), initialization falls
back to a fresh empty tree: the model ends up with `rootId` pointing at
a newly registered `RootNode` and that root is the only stored node, so
the store is ready rather than uninitialized. -/
theorem claim7_load_failure_fallback (m0 : Model) (load : Option SparqlData) (rid : String)
    (hinit : m0.nodes = [])
    (hfail : load = none ∨ ∃ d e, load = some d ∧ processLoadedData m0 d = Except.error e) :
    (initializeModel m0 load rid).rootId = some rid ∧
    (initializeModel m0 load rid).nodes =
      [(rid, { id := rid, type := "RootNode", title := none, created := none, description := none, parent := none, index := none, children := [] })] := by
  rcases hfail with rfl | ⟨d, e, rfl, he⟩
  · unfold initializeModel createEmptyModel
    refine ⟨rfl, ?_⟩
    show setM m0.nodes rid { id := rid, type := "RootNode", title := none, created := none, description := none, parent := none, index := none, children := [] } = _
    rw [hinit]
    rfl
  · have heq : initializeModel m0 (some d) rid = createEmptyModel e rid := by
      show (match processLoadedData m0 d with
        | Except.ok m2 => m2
        | Except.error mPartial => createEmptyModel mPartial rid) = createEmptyModel e rid
      rw [he]
    rw [heq]
    have hn : e.nodes = [] := processLoadedData_error m0 d e he
    unfold createEmptyModel
    refine ⟨rfl, ?_⟩
    show setM e.nodes rid { id := rid, type := "RootNode", title := none, created := none, description := none, parent := none, index := none, children := [] } = _
    rw [hn]
    rfl

/-- Witness for C7: a payload whose second binding lacks its node URI
makes the first pass throw, and initialization falls back to a
root-only store. -/
theorem claim7_witness :
    (initializeModel { baseUri := baseUriConfig } (some claim7BadData) "root-9").rootId =
      some "root-9" ∧
    (initializeModel { baseUri := baseUriConfig } (some claim7BadData) "root-9").nodes =
      [("root-9", { id := "root-9", type := "RootNode", title := none, created := none, description := none, parent := none, index := none, children := [] })] :=
  claim7_load_failure_fallback { baseUri := baseUriConfig } (some claim7BadData) "root-9" rfl
    (Or.inr ⟨claim7BadData, { baseUri := baseUriConfig, rootId := some "x", nodes := [] }, rfl,
      rfl⟩)

/-- C10: moving a node whose parent exists to an unresolvable new parent
is neither a no-op nor atomic: the node stays registered, unchanged, with
its `parent` field still naming the old parent; the old parent's children
array loses the node and the remaining siblings are renumbered 0,1,…; no
stored node lists the moved id, so it is unreachable from the root. -/
theorem claim10_move_to_missing (m : Model) (nid pid : String) (idx : Option Nat)
    (node op : TNode) (opid : String)
    (hwf : invB m = true)
    (hnode : getM m.nodes nid = some node)
    (hp : node.parent = some opid)
    (hop : getM m.nodes opid = some op)
    (hmem : nid ∈ op.children)
    (hpid : getM m.nodes pid = none)
    (hne : nid ≠ opid) :
    getNode (moveNode m nid pid idx) nid = some node ∧
    (getNode (moveNode m nid pid idx) opid).map (·.children) = some (op.children.erase nid) ∧
    (∀ j cid, (op.children.erase nid).get? j = some cid →
      ∃ c, getM (moveNode m nid pid idx).nodes cid = some c ∧ c.index = some j) ∧
    (∀ qid q, getM (moveNode m nid pid idx).nodes qid = some q → nid ∉ q.children) ∧
    getNode (moveNode m nid pid idx) opid ≠ getNode m opid := by
  obtain ⟨hknd, hnem, hinv⟩ := (invB_iff m).mp hwf
  have heqD : moveDetach m nid node
      = updateChildIndices
          { m with nodes := (modifyM m.nodes opid
            (fun p => { p with children := p.children.erase nid })) } opid := by
    unfold moveDetach
    rw [hp]
    simp only [hop]
    rw [if_pos hmem]
  have hgE : getM (modifyM m.nodes opid
      (fun p => { p with children := p.children.erase nid })) opid
      = some { op with children := op.children.erase nid } := by
    rw [getM_modifyM, if_pos rfl, hop]
    rfl
  have hucn : (updateChildIndices
      { m with nodes := (modifyM m.nodes opid
        (fun p => { p with children := p.children.erase nid })) } opid).nodes
      = reindexFrom (modifyM m.nodes opid
          (fun p => { p with children := p.children.erase nid }))
          (op.children.erase nid) 0 := by
    unfold updateChildIndices
    rw [hgE]
  have hnodesD : (moveDetach m nid node).nodes
      = reindexFrom (modifyM m.nodes opid
          (fun p => { p with children := p.children.erase nid }))
          (op.children.erase nid) 0 := by
    rw [heqD, hucn]
  have hpidD : getM (moveDetach m nid node).nodes pid = none := by
    apply not_key_getM
    rw [hnodesD, keysM_reindexFrom, keysM_modifyM]
    intro hkm
    have hs := mem_keys_isSome m.nodes pid hkm
    rw [hpid] at hs
    simp at hs
  have heqM : moveNode m nid pid idx = moveDetach m nid node := by
    unfold moveNode
    rw [hnode]
    show moveAttach (moveDetach m nid node) nid pid idx = moveDetach m nid node
    unfold moveAttach
    rw [hpidD]
  obtain ⟨hwf1, hnochild, hsome1⟩ :=
    WF_moveDetach m nid node ⟨hknd, hnem, hinv⟩ hnode
  obtain ⟨hknd1, hnem1, hinv1⟩ := hwf1
  have hniderase : nid ∉ op.children.erase nid := by
    intro hmem2
    rw [(hinv opid op hop).1.mem_erase_iff] at hmem2
    exact hmem2.1 rfl
  have ha : getM (moveDetach m nid node).nodes nid = some node := by
    rw [hnodesD, reindexFrom_not_mem _ _ _ _ hniderase, getM_modifyM, if_neg hne, hnode]
  have hb : (getM (moveDetach m nid node).nodes opid).map (·.children)
      = some (op.children.erase nid) := by
    have hch := reindexFrom_children (modifyM m.nodes opid
        (fun p => { p with children := p.children.erase nid }))
        (op.children.erase nid) 0 opid
    rw [hgE] at hch
    rw [hnodesD, hch]
    rfl
  obtain ⟨op1, hop1⟩ := Option.isSome_iff_exists.mp (show
      (getM (moveDetach m nid node).nodes opid).isSome = true by
    rw [hnodesD, reindexFrom_isSome, getM_modifyM, if_pos rfl, hop]
    rfl)
  have hop1c : op1.children = op.children.erase nid := by
    rw [hop1] at hb
    simpa using hb
  have hc : ∀ j cid, (op.children.erase nid).get? j = some cid →
      ∃ c, getM (moveDetach m nid node).nodes cid = some c ∧ c.index = some j := by
    intro j cid hj
    have hj2 : op1.children.get? j = some cid := by
      rw [hop1c]
      exact hj
    rcases (hinv1 opid op1 hop1).2 j cid hj2 with ⟨c, hcg, hcidx, _⟩
    exact ⟨c, hcg, hcidx⟩
  have hd : ∀ qid q, getM (moveDetach m nid node).nodes qid = some q → nid ∉ q.children := by
    intro qid q hq hmem2
    rcases List.mem_iff_get?.mp hmem2 with ⟨j, hj⟩
    exact hnochild qid q j hq hj
  have hlen : (op.children.erase nid).length ≠ op.children.length := by
    rw [List.length_erase_of_mem hmem]
    have hpos := List.length_pos_of_mem hmem
    omega
  have he : getM (moveDetach m nid node).nodes opid ≠ getM m.nodes opid := by
    rw [hop1, hop]
    intro hcontr
    apply hlen
    rw [← hop1c]
    obtain rfl : op1 = op := by simpa using hcontr
    rfl
  rw [show moveNode m nid pid idx = moveDetach m nid node from heqM]
  exact ⟨ha, hb, hc, hd, he⟩

/-- Witness for C10 on the two-node example: moving `n1` under the
unresolvable id `zzz` leaves `n1` stored with its old `parent` field
while the root's children shrink to the remaining sibling. -/
theorem claim10_witness :
    getNode (moveNode exTwo "n1" "zzz" none) "n1" =
      some { id := "n1", type := "Node", title := some "a", created := some "2025-01-01T00:00:00Z", description := none, parent := some "root-1", index := some 0, children := [] } ∧
    (getNode (moveNode exTwo "n1" "zzz" none) "root-1").map (·.children) =
      some ((["n1", "n2"] : List String).erase "n1") :=
  ⟨(claim10_move_to_missing exTwo "n1" "zzz" none
      { id := "n1", type := "Node", title := some "a", created := some "2025-01-01T00:00:00Z", description := none, parent := some "root-1", index := some 0, children := [] }
      { id := "root-1", type := "RootNode", title := none, created := none, description := none, parent := none, index := none, children := ["n1", "n2"] }
      "root-1" (by decide) (by decide) (by decide) (by decide) (by decide) (by decide)
      (by decide)).1,
   (claim10_move_to_missing exTwo "n1" "zzz" none
      { id := "n1", type := "Node", title := some "a", created := some "2025-01-01T00:00:00Z", description := none, parent := some "root-1", index := some 0, children := [] }
      { id := "root-1", type := "RootNode", title := none, created := none, description := none, parent := none, index := none, children := ["n1", "n2"] }
      "root-1" (by decide) (by decide) (by decide) (by decide) (by decide) (by decide)
      (by decide)).2.1⟩

/-- The five sequential global replacements of `escapeTurtle` act on a
character list exactly as the character-wise specification map. -/
theorem escChain (l : List Char) :
    ((((l.flatMap (fun ch => if ch = '\\' then ['\\', '\\'] else [ch])).flatMap
        (fun ch => if ch = '\"' then ['\\', '\"'] else [ch])).flatMap
        (fun ch => if ch = '\n' then ['\\', 'n'] else [ch])).flatMap
        (fun ch => if ch = '\r' then ['\\', 'r'] else [ch])).flatMap
        (fun ch => if ch = '\t' then ['\\', 't'] else [ch])
      = l.flatMap (fun c => (specEscapeChar c).data) := by
  induction l with
  | nil => rfl
  | cons c l ih =>
      rw [List.flatMap_cons, List.flatMap_append, List.flatMap_append, List.flatMap_append,
        List.flatMap_append, List.flatMap_cons, ih]
      congr 1
      by_cases h1 : c = '\\'
      · subst h1
        rfl
      by_cases h2 : c = '\"'
      · subst h2
        rfl
      by_cases h3 : c = '\n'
      · subst h3
        rfl
      by_cases h4 : c = '\r'
      · subst h4
        rfl
      by_cases h5 : c = '\t'
      · subst h5
        rfl
      simp [specEscapeChar, h1, h2, h3, h4, h5]

set_option maxRecDepth 8192 in
/-- C6: the Turtle escaping replaces backslash, double quote, newline,
carriage return and tab by their two-character escapes and nothing else
(it coincides with the character-wise specification map on every input),
and the title `He said "hi"\and` serializes inside `toTurtle` as
`dc:title "He said \"hi\"\\and"`. -/
theorem claim6_turtle_escaping :
    (∀ s : String, escapeTurtle s = specEscape s) ∧
    toTurtle exC6 =
      "@prefix dc: <http://purl.org/dc/terms/> .\n@prefix ts: <http://purl.org/stuff/trestle/> .\n\n<http://hyperdata.it/trestle/root-1> a ts:RootNode .\n<http://hyperdata.it/trestle/n1> a ts:Node;\n   dc:title \"He said \\\"hi\\\"\\\\and\" ;\n   dc:created \"2025-01-01\" ;\n   ts:index \"0\" ;\n   ts:parent <http://hyperdata.it/trestle/root-1> .\n" := by
  constructor
  · intro s
    by_cases hs : s = ""
    · subst hs
      rfl
    · unfold escapeTurtle
      rw [if_neg hs]
      exact congrArg String.mk (escChain s.data)
  · rfl

/-- Dataset membership after `Dataset.add`. -/
theorem mem_addQuad (d : Dataset) (x q : Quad) :
    q ∈ addQuad d x ↔ q ∈ d ∨ q = x := by
  unfold addQuad
  by_cases h : x ∈ d
  · rw [if_pos h]
    constructor
    · exact Or.inl
    · rintro (hq | rfl)
      · exact hq
      · exact h
  · rw [if_neg h]
    simp [List.mem_append]

/-- Dataset membership after folding `Dataset.add` over a quad list. -/
theorem mem_foldl_addQuad (qs : List Quad) (d : Dataset) (q : Quad) :
    q ∈ qs.foldl addQuad d ↔ q ∈ d ∨ q ∈ qs := by
  induction qs generalizing d with
  | nil => simp
  | cons x qs ih =>
      rw [List.foldl_cons, ih, mem_addQuad]
      simp [List.mem_cons, or_assoc]

/-- Every quad `addNodeToRDF` emits for a node has that node's URI as
subject. -/
theorem subj_nodeQuadsList (bu : String) (node : TNode) (now : String) (q : Quad)
    (hq : q ∈ nodeQuadsList bu node now) : q.subj = Term.named (bu ++ node.id) := by
  unfold nodeQuadsList at hq
  simp only [List.mem_append] at hq
  rcases hq with ((((hA | hB) | hC) | hD) | hE) | hF
  · rw [List.mem_singleton] at hA
    subst hA
    rfl
  · cases ht : node.title with
    | some t =>
        simp only [ht, List.mem_singleton] at hB
        subst hB
        rfl
    | none => simp [ht] at hB
  · rw [List.mem_singleton] at hC
    subst hC
    rfl
  · cases hd : node.description with
    | some d =>
        simp only [hd, List.mem_singleton] at hD
        subst hD
        rfl
    | none => simp [hd] at hD
  · cases hp : node.parent with
    | some p =>
        simp only [hp, List.mem_singleton] at hE
        subst hE
        rfl
    | none => simp [hp] at hE
  · cases hi : node.index with
    | some i =>
        simp only [hi, List.mem_singleton] at hF
        subst hF
        rfl
    | none => simp [hi] at hF

/-- C1 (counterexample): quads can go stale or mismatched after a
mutation.  `updateNodeDescription` stores the node's new description
under `dc:description`, while the projection (`addNodeToRDF`) maps the
`description` field to `ts:description`: after the call the dataset
holds a `dc:description` quad, no `ts:description` quad, yet the
projection of the node's current fields expects `ts:description`. -/
theorem claim1_counterexample :
    getNode (rdfUpdateNodeDescription exRDFOne "n1" "hello").model "n1" =
      some { id := "n1", type := "Node", title := some "a", created := some "2025-01-01T00:00:01Z", description := some "hello", parent := some "root-1", index := some 0, children := [] } ∧
    Quad.mk (Term.named (baseUriConfig ++ "n1")) (dcNs ++ "description") (Term.literal "hello" none) ∈
      (rdfUpdateNodeDescription exRDFOne "n1" "hello").rdfDataset ∧
    Quad.mk (Term.named (baseUriConfig ++ "n1")) (tsNs ++ "description") (Term.literal "hello" none) ∉
      (rdfUpdateNodeDescription exRDFOne "n1" "hello").rdfDataset ∧
    Quad.mk (Term.named (baseUriConfig ++ "n1")) (tsNs ++ "description") (Term.literal "hello" none) ∈
      nodeQuadsList baseUriConfig { id := "n1", type := "Node", title := some "a", created := some "2025-01-01T00:00:01Z", description := some "hello", parent := some "root-1", index := some 0, children := [] } "2025-01-01T00:00:01Z" := by
  exact ⟨by decide, by decide, by decide, by decide⟩

/-- C1 (amended): the consistency does hold for the full re-projection
path: after `updateNode` on the RDF model, the quads whose subject is the
node's URI are exactly the projection of the node's current field values
(`nodeQuadsList`) at the call's timestamp. -/
theorem claim1_rdf_update_consistent (rm : RDFModel) (nid : String) (props : NodePatch)
    (now : String) (node : TNode)
    (hn : getM (updateNode rm.model nid props).nodes nid = some node)
    (hid : node.id = nid) :
    ∀ q, q ∈ subjQuads (rdfUpdateNode rm nid props now).rdfDataset
        (Term.named ((updateNode rm.model nid props).baseUri ++ nid)) ↔
      q ∈ nodeQuadsList (updateNode rm.model nid props).baseUri node now := by
  have heq : rdfUpdateNode rm nid props now =
      { model := updateNode rm.model nid props,
        rdfDataset := addNodeToRDF
          (rm.rdfDataset.filter (fun q =>
            ¬ (q.subj == Term.named ((updateNode rm.model nid props).baseUri ++ nid))))
          (updateNode rm.model nid props).baseUri node now } := by
    simp only [rdfUpdateNode]
    rw [hn]
  intro q
  rw [heq]
  show q ∈ subjQuads (addNodeToRDF _ _ _ _) _ ↔ _
  unfold addNodeToRDF
  simp only [subjQuads, List.mem_filter, mem_foldl_addQuad, decide_eq_true_eq, beq_iff_eq]
  constructor
  · rintro ⟨hq | hq, hsub⟩
    · exact absurd hsub hq.2
    · exact hq
  · intro hq
    have hsub := subj_nodeQuadsList _ _ _ _ hq
    rw [hid] at hsub
    exact ⟨Or.inr hq, hsub⟩

/-- Witness for the C1 amended theorem: after an RDF-level `updateNode`
setting the description, the expected `ts:description` projection quad is
among the node's subject quads. -/
theorem claim1_witness :
    getM (updateNode exRDFOne.model "n1" { description := some (some "hello") }).nodes "n1" =
      some { id := "n1", type := "Node", title := some "a", created := some "2025-01-01T00:00:01Z", description := some "hello", parent := some "root-1", index := some 0, children := [] } ∧
    (Quad.mk (Term.named (baseUriConfig ++ "n1")) (tsNs ++ "description") (Term.literal "hello" none) ∈
        subjQuads (rdfUpdateNode exRDFOne "n1" { description := some (some "hello") } "2025-03-01").rdfDataset
          (Term.named ((updateNode exRDFOne.model "n1" { description := some (some "hello") }).baseUri ++ "n1")) ↔
      Quad.mk (Term.named (baseUriConfig ++ "n1")) (tsNs ++ "description") (Term.literal "hello" none) ∈
        nodeQuadsList (updateNode exRDFOne.model "n1" { description := some (some "hello") }).baseUri
          { id := "n1", type := "Node", title := some "a", created := some "2025-01-01T00:00:01Z", description := some "hello", parent := some "root-1", index := some 0, children := [] } "2025-03-01") :=
  ⟨by decide,
   claim1_rdf_update_consistent exRDFOne "n1" { description := some (some "hello") } "2025-03-01"
     { id := "n1", type := "Node", title := some "a", created := some "2025-01-01T00:00:01Z", description := some "hello", parent := some "root-1", index := some 0, children := [] }
     (by decide) rfl
     (Quad.mk (Term.named (baseUriConfig ++ "n1")) (tsNs ++ "description") (Term.literal "hello" none))⟩

/-- Two duplicate-free lists with the same members have the same length. -/
theorem length_eq_of_nodup_of_mem_iff (l1 l2 : List String) (h1 : l1.Nodup)
    (h2 : l2.Nodup) (hm : ∀ a, a ∈ l1 ↔ a ∈ l2) : l1.length = l2.length := by
  have hf : l1.toFinset = l2.toFinset := by
    ext a
    simp [List.mem_toFinset, hm a]
  rw [← List.toFinset_card_of_nodup h1, ← List.toFinset_card_of_nodup h2, hf]

/-- A concatenation of blocks over a duplicate-free index list is
duplicate-free when every block is and distinct blocks are disjoint. -/
theorem nodup_flatMap_of (l : List String) (g : String → List String)
    (hl : l.Nodup) (hb : ∀ a ∈ l, (g a).Nodup)
    (hd : ∀ a b, a ∈ l → b ∈ l → a ≠ b → ∀ x, x ∈ g a → x ∉ g b) :
    (l.flatMap g).Nodup := by
  induction l with
  | nil => exact List.nodup_nil
  | cons a l ih =>
      rw [List.flatMap_cons, List.nodup_append]
      refine ⟨hb a (List.mem_cons_self a l), ?_, ?_⟩
      · exact ih (List.nodup_cons.mp hl).2 (fun b hbmem => hb b (List.mem_cons_of_mem a hbmem))
          (fun b c hbm hcm hbc => hd b c (List.mem_cons_of_mem a hbm)
            (List.mem_cons_of_mem a hcm) hbc)
      · intro x hxa hxl
        rcases List.mem_flatMap.mp hxl with ⟨b, hbm, hxb⟩
        have hab : a ≠ b := by
          intro he
          exact (List.nodup_cons.mp hl).1 (he ▸ hbm)
        exact hd a b (List.mem_cons_self a l) (List.mem_cons_of_mem a hbm) hab x hxa hxb

/-- Absence from the store is absence from the key list. -/
theorem getM_eq_none_iff (l : NodeMap) (k : String) :
    getM l k = none ↔ k ∉ keysM l := by
  constructor
  · intro h hk
    have := mem_keys_isSome l k hk
    rw [h] at this
    simp at this
  · exact not_key_getM l k

/-- With at least one unit of budget, `deleteNodeFuel` always removes its
target. -/
theorem deleted_deleteNodeFuel (fuel : Nat) (m : Model) (nid : String) (hf : 1 ≤ fuel) :
    getM (deleteNodeFuel fuel m nid).nodes nid = none := by
  cases fuel with
  | zero => exact absurd hf (by omega)
  | succ fuel =>
      cases hn : getM m.nodes nid with
      | none =>
          have heq : deleteNodeFuel (fuel + 1) m nid = m := by
            unfold deleteNodeFuel
            rw [hn]
          rw [heq]
          exact hn
      | some node =>
          have heq : deleteNodeFuel (fuel + 1) m nid
              = { (detachChild (node.children.foldl
                    (fun acc cid => deleteNodeFuel fuel acc cid) m) nid node.parent) with
                  nodes := eraseM (detachChild (node.children.foldl
                    (fun acc cid => deleteNodeFuel fuel acc cid) m) nid node.parent).nodes nid } := by
            conv_lhs => unfold deleteNodeFuel
            rw [hn]
          rw [heq]
          show getM (eraseM _ nid) nid = none
          rw [getM_eraseM, if_pos rfl]

/-- `detachChild` never changes the key list. -/
theorem keysM_detachChild (m1 : Model) (nid : String) (po : Option String) :
    keysM (detachChild m1 nid po).nodes = keysM m1.nodes := by
  cases po with
  | none => rfl
  | some pid =>
      simp only [detachChild]
      by_cases hpe : pid = ""
      · rw [if_pos hpe]
      · rw [if_neg hpe]
        cases hp : getM m1.nodes pid with
        | none => rfl
        | some p =>
            simp only []
            by_cases hmem : nid ∈ p.children
            · rw [if_pos hmem]
              rw [keysM_updateChildIndices, keysM_modifyM]
            · rw [if_neg hmem]

/-- A node surviving `detachChild` existed before, with the same children
array or with the detached id erased from it. -/
theorem detach_children_char (m1 : Model) (nid : String) (po : Option String)
    (x : String) (n' : TNode)
    (h : getM (detachChild m1 nid po).nodes x = some n') :
    ∃ n, getM m1.nodes x = some n ∧
      (n'.children = n.children ∨ n'.children = n.children.erase nid) := by
  cases po with
  | none => exact ⟨n', h, Or.inl rfl⟩
  | some pid =>
      simp only [detachChild] at h
      by_cases hpe : pid = ""
      · rw [if_pos hpe] at h
        exact ⟨n', h, Or.inl rfl⟩
      · rw [if_neg hpe] at h
        cases hp : getM m1.nodes pid with
        | none =>
            rw [hp] at h
            exact ⟨n', h, Or.inl rfl⟩
        | some p =>
            rw [hp] at h
            simp only [] at h
            by_cases hmem : nid ∈ p.children
            · rw [if_pos hmem] at h
              have hns2 : getM (modifyM m1.nodes pid
                  (fun q => { q with children := q.children.erase nid })) pid
                  = some { p with children := p.children.erase nid } := by
                rw [getM_modifyM, if_pos rfl, hp]
                rfl
              have hucn := nodes_updateChildIndices
                { m1 with nodes := (modifyM m1.nodes pid
                  (fun q => { q with children := q.children.erase nid })) } pid
                { p with children := p.children.erase nid } hns2
              rw [hucn] at h
              have hch := reindexFrom_children (modifyM m1.nodes pid
                  (fun q => { q with children := q.children.erase nid }))
                  (({ p with children := p.children.erase nid } : TNode).children) 0 x
              rw [h, getM_modifyM] at hch
              by_cases hxp : x = pid
              · rw [if_pos hxp, hxp, hp] at hch
                refine ⟨p, by rw [hxp, hp], Or.inr ?_⟩
                simpa using hch
              · rw [if_neg hxp] at hch
                cases hx0 : getM m1.nodes x with
                | none =>
                    rw [hx0] at hch
                    simp at hch
                | some n0 =>
                    rw [hx0] at hch
                    refine ⟨n0, rfl, Or.inl ?_⟩
                    simpa using hch
            · rw [if_neg hmem] at h
              exact ⟨n', h, Or.inl rfl⟩

/-- `StoreLe` is reflexive. -/
theorem storeLe_refl (nm : NodeMap) : StoreLe nm nm :=
  fun _ n' h => ⟨n', h, List.Sublist.refl _⟩

/-- `StoreLe` is transitive. -/
theorem storeLe_trans (a b c : NodeMap) (hab : StoreLe a b) (hbc : StoreLe b c) :
    StoreLe a c := by
  intro x n' h
  rcases hab x n' h with ⟨n1, hn1, hs1⟩
  rcases hbc x n1 hn1 with ⟨n2, hn2, hs2⟩
  exact ⟨n2, hn2, hs1.trans hs2⟩

/-- A refined store is absent wherever the original is absent. -/
theorem none_of_storeLe (a b : NodeMap) (h : StoreLe a b) (x : String)
    (hb : getM b x = none) : getM a x = none := by
  cases ha : getM a x with
  | none => rfl
  | some n' =>
      rcases h x n' ha with ⟨n, hn, _⟩
      rw [hb] at hn
      exact absurd hn (by simp)

/-- Ranked stores stay ranked under refinement. -/
theorem rankedBy_of_storeLe (a b : NodeMap) (rk : String → Nat)
    (hle : StoreLe a b) (hrb : RankedBy b rk) : RankedBy a rk := by
  intro pid p hp cid hc
  rcases hle pid p hp with ⟨n, hn, hs⟩
  exact hrb pid n hn cid (hs.subset hc)

/-- `EdgePres` composes. -/
theorem edgePres_trans (m a b : NodeMap) (h1 : EdgePres m a) (h2 : EdgePres a b)
    (hle : StoreLe b a) : EdgePres m b := by
  intro x n n'' hm hb z hz
  rcases hle x n'' hb with ⟨n1, hn1, _⟩
  rcases h1 x n n1 hm hn1 z hz with hz1 | hz1
  · exact h2 x n1 n'' hn1 hb z hz1
  · exact Or.inr (none_of_storeLe b a hle z hz1)

/-- `DelClosed` composes. -/
theorem delClosed_trans (m a b : NodeMap) (hd1 : DelClosed m a) (hd2 : DelClosed a b)
    (he1 : EdgePres m a) (hle : StoreLe b a) : DelClosed m b := by
  intro x n hm hb z hz
  cases ha : getM a x with
  | none => exact none_of_storeLe b a hle z (hd1 x n hm ha z hz)
  | some n1 =>
      rcases he1 x n n1 hm ha z hz with hz1 | hz1
      · exact hd2 x n1 ha hb z hz1
      · exact none_of_storeLe b a hle z hz1

/-- `ancestorAt` on an unresolvable node. -/
theorem anc_succ_none (k : Nat) (nm : NodeMap) (x : String)
    (h : getM nm x = none) : ancestorAt (k + 1) nm x = none := by
  conv_lhs => unfold ancestorAt
  rw [h]

/-- `ancestorAt` on a parentless node. -/
theorem anc_succ_nopar (k : Nat) (nm : NodeMap) (x : String) (n : TNode)
    (h1 : getM nm x = some n) (h2 : n.parent = none) :
    ancestorAt (k + 1) nm x = none := by
  conv_lhs => unfold ancestorAt
  rw [h1]
  simp only []
  rw [h2]

/-- `ancestorAt` steps through the parent pointer. -/
theorem anc_succ_some (k : Nat) (nm : NodeMap) (x : String) (n : TNode) (p : String)
    (h1 : getM nm x = some n) (h2 : n.parent = some p) :
    ancestorAt (k + 1) nm x = ancestorAt k nm p := by
  conv_lhs => unfold ancestorAt
  rw [h1]
  simp only []
  rw [h2]

/-- Ancestor chains compose. -/
theorem ancestorAt_add (j k : Nat) (nm : NodeMap) (x : String) :
    ancestorAt (j + k) nm x = (ancestorAt k nm x).bind (fun y => ancestorAt j nm y) := by
  induction k generalizing x with
  | zero => rfl
  | succ k ih =>
      rw [Nat.add_succ]
      cases hn : getM nm x with
      | none =>
          rw [anc_succ_none (j + k) nm x hn, anc_succ_none k nm x hn]
          rfl
      | some n =>
          cases hp : n.parent with
          | none =>
              rw [anc_succ_nopar (j + k) nm x n hn hp, anc_succ_nopar k nm x n hn hp]
              rfl
          | some p =>
              rw [anc_succ_some (j + k) nm x n p hn hp, anc_succ_some k nm x n p hn hp]
              exact ih p

/-- In a parent-listed ranked store, a nonempty ancestor chain ending at
a stored node strictly increases the rank. -/
theorem rank_of_chain (nm : NodeMap) (rk : String → Nat) (hpl : ParentListed nm)
    (hrb : RankedBy nm rk) :
    ∀ k x c, 0 < k → ancestorAt k nm x = some c → (getM nm c).isSome → rk x < rk c := by
  intro k
  induction k with
  | zero => exact fun x c h _ _ => absurd h (by omega)
  | succ k ih =>
      intro x c _ hch hc
      cases hn : getM nm x with
      | none =>
          rw [anc_succ_none k nm x hn] at hch
          exact absurd hch (by simp)
      | some n =>
          cases hp : n.parent with
          | none =>
              rw [anc_succ_nopar k nm x n hn hp] at hch
              exact absurd hch (by simp)
          | some p =>
              rw [anc_succ_some k nm x n p hn hp] at hch
              rcases Nat.eq_zero_or_pos k with rfl | hk
              · have hpc : p = c := by simpa [ancestorAt] using hch
                subst hpc
                rcases Option.isSome_iff_exists.mp hc with ⟨pn, hpn⟩
                exact hrb p pn hpn x (hpl x n p pn hn hp hpn)
              · have hppres : (getM nm p).isSome := by
                  cases k with
                  | zero => omega
                  | succ k2 =>
                      cases hgp : getM nm p with
                      | none =>
                          rw [anc_succ_none k2 nm p hgp] at hch
                          exact absurd hch (by simp)
                      | some pn => rfl
                rcases Option.isSome_iff_exists.mp hppres with ⟨pn, hpn⟩
                have h1 : rk x < rk p := hrb p pn hpn x (hpl x n p pn hn hp hpn)
                have h2 : rk p < rk c := ih p c hk hch hc
                omega

/-- The executable parent-listing check implies the propositional one. -/
theorem parentListed_of_b (m : Model) (h : parentListedB m = true) :
    ParentListed m.nodes := by
  intro x n p pn hx hp hpn
  rw [parentListedB, List.all_eq_true] at h
  have h2 := h (x, n) (mem_of_getM m.nodes x n hx)
  simp only [hp, hpn, decide_eq_true_eq] at h2
  exact h2

/-- The executable rank check implies `RankedBy`. -/
theorem rankedBy_of_b (m : Model) (rk : String → Nat) (h : rankedByB m rk = true) :
    RankedBy m.nodes rk := by
  intro pid p hp cid hc
  rw [rankedByB, List.all_eq_true] at h
  have h2 := h (pid, p) (mem_of_getM m.nodes pid p hp)
  rw [List.all_eq_true] at h2
  simpa using h2 cid hc

/-- `gadFuel` on an unresolvable node. -/
theorem gad_succ_none (f : Nat) (m : Model) (c : String)
    (h : getM m.nodes c = none) : gadFuel (f + 1) m c = [] := by
  conv_lhs => unfold gadFuel
  rw [h]

/-- Unfolding step of `gadFuel` on a stored node. -/
theorem gad_succ_some (f : Nat) (m : Model) (c : String) (cn : TNode)
    (h : getM m.nodes c = some cn) :
    gadFuel (f + 1) m c = cn.children.flatMap (fun cid => cid :: gadFuel f m cid) := by
  conv_lhs => unfold gadFuel
  rw [h]

/-- Every collected descendant has an ancestor chain back to the
starting node. -/
theorem mem_gadFuel_chain (m : Model) (hsi : StoreInv m.nodes) :
    ∀ (f : Nat) (c x : String), x ∈ gadFuel f m c →
      ∃ k, 0 < k ∧ ancestorAt k m.nodes x = some c := by
  intro f
  induction f with
  | zero => intro c x hx; simp [gadFuel] at hx
  | succ f ih =>
      intro c x hx
      cases hc : getM m.nodes c with
      | none => rw [gad_succ_none f m c hc] at hx; simp at hx
      | some cn =>
          rw [gad_succ_some f m c cn hc] at hx
          rcases List.mem_flatMap.mp hx with ⟨cid, hcid, hxm⟩
          rcases List.mem_iff_get?.mp hcid with ⟨i, hi⟩
          rcases (hsi c cn hc).2 i cid hi with ⟨cc, hcc, _, hccp⟩
          rcases List.mem_cons.mp hxm with rfl | hxg
          · refine ⟨1, by omega, ?_⟩
            rw [anc_succ_some 0 m.nodes x cc c hcc hccp]
            rfl
          · rcases ih cid x hxg with ⟨k, hk, hch⟩
            refine ⟨1 + k, by omega, ?_⟩
            rw [ancestorAt_add 1 k m.nodes x, hch]
            show ancestorAt 1 m.nodes cid = some c
            rw [anc_succ_some 0 m.nodes cid cc c hcc hccp]
            rfl

/-- Every collected descendant is stored. -/
theorem mem_gadFuel_present (m : Model) (hsi : StoreInv m.nodes) :
    ∀ (f : Nat) (c x : String), x ∈ gadFuel f m c → (getM m.nodes x).isSome := by
  intro f
  induction f with
  | zero => intro c x hx; simp [gadFuel] at hx
  | succ f ih =>
      intro c x hx
      cases hc : getM m.nodes c with
      | none => rw [gad_succ_none f m c hc] at hx; simp at hx
      | some cn =>
          rw [gad_succ_some f m c cn hc] at hx
          rcases List.mem_flatMap.mp hx with ⟨cid, hcid, hxm⟩
          rcases List.mem_iff_get?.mp hcid with ⟨i, hi⟩
          rcases (hsi c cn hc).2 i cid hi with ⟨cc, hcc, _, _⟩
          rcases List.mem_cons.mp hxm with rfl | hxg
          · rw [hcc]; rfl
          · exact ih cid x hxg

/-- Descendants rank strictly below the ancestor. -/
theorem gadFuel_rank_lt (m : Model) (rk : String → Nat) (hsi : StoreInv m.nodes)
    (hpl : ParentListed m.nodes) (hrb : RankedBy m.nodes rk)
    (f : Nat) (c x : String) (hc : (getM m.nodes c).isSome)
    (hx : x ∈ gadFuel f m c) : rk x < rk c := by
  rcases mem_gadFuel_chain m hsi f c x hx with ⟨k, hk, hch⟩
  exact rank_of_chain m.nodes rk hpl hrb k x c hk hch hc

/-- No node has ancestor chains to two distinct children of the same
stored parent. -/
theorem chain_disjoint (m : Model) (rk : String → Nat) (hsi : StoreInv m.nodes)
    (hpl : ParentListed m.nodes) (hrb : RankedBy m.nodes rk)
    (p : String) (pn : TNode) (hp : getM m.nodes p = some pn)
    (c1 c2 : String) (i1 i2 : Nat)
    (h1 : pn.children.get? i1 = some c1) (h2 : pn.children.get? i2 = some c2)
    (hne : c1 ≠ c2) (x : String) (k1 k2 : Nat)
    (hc1 : ancestorAt k1 m.nodes x = some c1) (hc2 : ancestorAt k2 m.nodes x = some c2)
    (hle : k1 ≤ k2) : False := by
  rcases (hsi p pn hp).2 i1 c1 h1 with ⟨n1, hn1, _, hn1p⟩
  rcases (hsi p pn hp).2 i2 c2 h2 with ⟨n2, hn2, _, _⟩
  rcases Nat.eq_or_lt_of_le hle with rfl | hlt
  · rw [hc1] at hc2
    exact hne (by simpa using hc2)
  · have hdecomp : k2 = (k2 - k1) + k1 := by omega
    have hch : ancestorAt (k2 - k1) m.nodes c1 = some c2 := by
      have hadd := ancestorAt_add (k2 - k1) k1 m.nodes x
      rw [← hdecomp, hc2, hc1] at hadd
      exact hadd.symm
    obtain ⟨d, hd2⟩ : ∃ d, k2 - k1 = d + 1 := ⟨k2 - k1 - 1, by omega⟩
    rw [hd2, anc_succ_some d m.nodes c1 n1 p hn1 hn1p] at hch
    rcases Nat.eq_zero_or_pos d with rfl | hd
    · have hpc2 : p = c2 := by simpa [ancestorAt] using hch
      have hrk := hrb p pn hp c2 (List.get?_mem h2)
      rw [hpc2] at hrk
      omega
    · have hrk1 : rk p < rk c2 := rank_of_chain m.nodes rk hpl hrb d p c2 hd hch
        (by rw [hn2]; rfl)
      have hrk2 : rk c2 < rk p := hrb p pn hp c2 (List.get?_mem h2)
      omega

/-- Collected descendants are pairwise distinct. -/
theorem gadFuel_nodup (m : Model) (rk : String → Nat) (hsi : StoreInv m.nodes)
    (hpl : ParentListed m.nodes) (hrb : RankedBy m.nodes rk) :
    ∀ (f : Nat) (c : String), (gadFuel f m c).Nodup := by
  intro f
  induction f with
  | zero => intro c; simp [gadFuel]
  | succ f ih =>
      intro c
      cases hc : getM m.nodes c with
      | none => rw [gad_succ_none f m c hc]; exact List.nodup_nil
      | some cn =>
          rw [gad_succ_some f m c cn hc]
          apply nodup_flatMap_of _ _ (hsi c cn hc).1
          · intro cid hcid
            rcases List.mem_iff_get?.mp hcid with ⟨i, hi⟩
            rcases (hsi c cn hc).2 i cid hi with ⟨cc, hcc, _, _⟩
            rw [List.nodup_cons]
            refine ⟨?_, ih cid⟩
            intro hmem
            exact absurd (gadFuel_rank_lt m rk hsi hpl hrb f cid cid (by rw [hcc]; rfl) hmem)
              (by omega)
          · intro a b ha hb hab x hxa hxb
            rcases List.mem_iff_get?.mp ha with ⟨ia, hia⟩
            rcases List.mem_iff_get?.mp hb with ⟨ib, hib⟩
            have hka : ∃ ka, ancestorAt ka m.nodes x = some a := by
              rcases List.mem_cons.mp hxa with rfl | hg
              · exact ⟨0, rfl⟩
              · rcases mem_gadFuel_chain m hsi f a x hg with ⟨k, _, hch⟩
                exact ⟨k, hch⟩
            have hkb : ∃ kb, ancestorAt kb m.nodes x = some b := by
              rcases List.mem_cons.mp hxb with rfl | hg
              · exact ⟨0, rfl⟩
              · rcases mem_gadFuel_chain m hsi f b x hg with ⟨k, _, hch⟩
                exact ⟨k, hch⟩
            rcases hka with ⟨ka, hcha⟩
            rcases hkb with ⟨kb, hchb⟩
            rcases Nat.le_total ka kb with hle | hle
            · exact chain_disjoint m rk hsi hpl hrb c cn hc a b ia ib hia hib hab x
                ka kb hcha hchb hle
            · exact chain_disjoint m rk hsi hpl hrb c cn hc b a ib ia hib hia
                (Ne.symm hab) x kb ka hchb hcha hle

/-- Descendant collection is monotone in the store. -/
theorem gadFuel_mono (a b : Model) (hle : StoreLe a.nodes b.nodes) :
    ∀ (f : Nat) (y x : String), x ∈ gadFuel f a y → x ∈ gadFuel f b y := by
  intro f
  induction f with
  | zero => intro y x hx; simp [gadFuel] at hx
  | succ f ih =>
      intro y x hx
      cases hy : getM a.nodes y with
      | none => rw [gad_succ_none f a y hy] at hx; simp at hx
      | some n' =>
          rw [gad_succ_some f a y n' hy] at hx
          rcases hle y n' hy with ⟨n, hn, hs⟩
          rw [gad_succ_some f b y n hn]
          rcases List.mem_flatMap.mp hx with ⟨cid, hcid, hxm⟩
          refine List.mem_flatMap.mpr ⟨cid, hs.subset hcid, ?_⟩
          rcases List.mem_cons.mp hxm with rfl | hg
          · exact List.mem_cons_self _ _
          · exact List.mem_cons_of_mem _ (ih cid x hg)

/-- `EdgePres` is reflexive. -/
theorem edgePres_refl (nm : NodeMap) : EdgePres nm nm := by
  intro x n n' h1 h2 z hz
  rw [h1] at h2
  obtain rfl : n = n' := by simpa using h2
  exact Or.inl hz

/-- `DelClosed` is reflexive. -/
theorem delClosed_refl (nm : NodeMap) : DelClosed nm nm := by
  intro x n h1 h2 z _
  rw [h1] at h2
  exact absurd h2 (by simp)

/-- Deletion refines the store, removes child edges only by deleting the
child, and deletes a node only together with its children (at rank-adequate
budgets). -/
theorem delPkg (rk : String → Nat) : ∀ (fuel : Nat) (m : Model) (nid : String),
    WF m.nodes → RankedBy m.nodes rk → rk nid < fuel →
    StoreLe (deleteNodeFuel fuel m nid).nodes m.nodes ∧
    EdgePres m.nodes (deleteNodeFuel fuel m nid).nodes ∧
    DelClosed m.nodes (deleteNodeFuel fuel m nid).nodes := by
  intro fuel
  induction fuel with
  | zero => intro m nid _ _ h; exact absurd h (by omega)
  | succ fuel ih =>
      intro m nid hwf hrb hrk
      cases hn : getM m.nodes nid with
      | none =>
          have heq : deleteNodeFuel (fuel + 1) m nid = m := by
            unfold deleteNodeFuel
            rw [hn]
          rw [heq]
          exact ⟨storeLe_refl _, edgePres_refl _, delClosed_refl _⟩
      | some node =>
          have heq : deleteNodeFuel (fuel + 1) m nid
              = { (detachChild (node.children.foldl (fun acc cid => deleteNodeFuel fuel acc cid) m) nid node.parent) with
                  nodes := eraseM (detachChild (node.children.foldl (fun acc cid => deleteNodeFuel fuel acc cid) m) nid node.parent).nodes nid } := by
            conv_lhs => unfold deleteNodeFuel
            rw [hn]
          rw [heq]
          have hfold : ∀ (cs : List String) (m0 : Model), WF m0.nodes → RankedBy m0.nodes rk →
              (∀ c ∈ cs, rk c < fuel) →
              StoreLe (cs.foldl (fun acc cid => deleteNodeFuel fuel acc cid) m0).nodes m0.nodes ∧
              EdgePres m0.nodes (cs.foldl (fun acc cid => deleteNodeFuel fuel acc cid) m0).nodes ∧
              DelClosed m0.nodes (cs.foldl (fun acc cid => deleteNodeFuel fuel acc cid) m0).nodes ∧
              WF (cs.foldl (fun acc cid => deleteNodeFuel fuel acc cid) m0).nodes ∧
              (∀ c ∈ cs, getM (cs.foldl (fun acc cid => deleteNodeFuel fuel acc cid) m0).nodes c = none) := by
            intro cs
            induction cs with
            | nil =>
                intro m0 hw hr _
                exact ⟨storeLe_refl _, edgePres_refl _, delClosed_refl _, hw, by simp⟩
            | cons d ds ihd =>
                intro m0 hw hr hc
                have hrkd : rk d < fuel := hc d (List.mem_cons_self d ds)
                have hpkg := ih m0 d hw hr hrkd
                have hwa : WF (deleteNodeFuel fuel m0 d).nodes := WF_deleteNodeFuel fuel m0 d hw
                have hra : RankedBy (deleteNodeFuel fuel m0 d).nodes rk :=
                  rankedBy_of_storeLe _ _ rk hpkg.1 hr
                have hrest := ihd (deleteNodeFuel fuel m0 d) hwa hra
                  (fun c hcm => hc c (List.mem_cons_of_mem d hcm))
                simp only [List.foldl_cons]
                refine ⟨storeLe_trans _ _ _ hrest.1 hpkg.1,
                  edgePres_trans _ _ _ hpkg.2.1 hrest.2.1 hrest.1,
                  delClosed_trans _ _ _ hpkg.2.2 hrest.2.2.1 hpkg.2.1 hrest.1,
                  hrest.2.2.2.1, ?_⟩
                intro c hcm
                rcases List.mem_cons.mp hcm with rfl | hcm2
                · have hdel : getM (deleteNodeFuel fuel m0 c).nodes c = none :=
                    deleted_deleteNodeFuel fuel m0 c (by omega)
                  exact none_of_storeLe _ _ hrest.1 c hdel
                · exact hrest.2.2.2.2 c hcm2
          have hchild_rk : ∀ c ∈ node.children, rk c < fuel := by
            intro c hcm
            have := hrb nid node hn c hcm
            omega
          have hm1 := hfold node.children m hwf hrb hchild_rk
          have hFSle : StoreLe (eraseM (detachChild (node.children.foldl (fun acc cid => deleteNodeFuel fuel acc cid) m) nid node.parent).nodes nid)
              (node.children.foldl (fun acc cid => deleteNodeFuel fuel acc cid) m).nodes := by
            intro x n' hx
            rw [getM_eraseM] at hx
            by_cases hxn : x = nid
            · rw [if_pos hxn] at hx
              exact absurd hx (by simp)
            · rw [if_neg hxn] at hx
              rcases detach_children_char (node.children.foldl (fun acc cid => deleteNodeFuel fuel acc cid) m) nid node.parent x n' hx with ⟨n0, hn0, hch⟩
              refine ⟨n0, hn0, ?_⟩
              rcases hch with h | h
              · rw [h]
              · rw [h]
                exact List.erase_sublist _ _
          have hFSe : EdgePres (node.children.foldl (fun acc cid => deleteNodeFuel fuel acc cid) m).nodes
              (eraseM (detachChild (node.children.foldl (fun acc cid => deleteNodeFuel fuel acc cid) m) nid node.parent).nodes nid) := by
            intro x n n' h1 h2 z hz
            rw [getM_eraseM] at h2
            by_cases hxn : x = nid
            · rw [if_pos hxn] at h2
              exact absurd h2 (by simp)
            · rw [if_neg hxn] at h2
              rcases detach_children_char (node.children.foldl (fun acc cid => deleteNodeFuel fuel acc cid) m) nid node.parent x n' h2 with ⟨n0, hn0, hch⟩
              rw [h1] at hn0
              obtain rfl : n = n0 := by simpa using hn0
              rcases hch with h | h
              · refine Or.inl ?_
                rw [h]
                exact hz
              · by_cases hzn : z = nid
                · refine Or.inr ?_
                  rw [hzn, getM_eraseM, if_pos rfl]
                · refine Or.inl ?_
                  rw [h]
                  exact (List.mem_erase_of_ne hzn).mpr hz
          have hDc : DelClosed m.nodes
              (eraseM (detachChild (node.children.foldl (fun acc cid => deleteNodeFuel fuel acc cid) m) nid node.parent).nodes nid) := by
            intro x nx hx hnone z hz
            by_cases hxn : x = nid
            · rw [hxn, hn] at hx
              obtain rfl : node = nx := by simpa using hx
              have hz1 : getM (node.children.foldl (fun acc cid => deleteNodeFuel fuel acc cid) m).nodes z = none := hm1.2.2.2.2 z hz
              exact none_of_storeLe _ _ hFSle z hz1
            · have hm1none : getM (node.children.foldl (fun acc cid => deleteNodeFuel fuel acc cid) m).nodes x = none := by
                rw [getM_eraseM, if_neg hxn] at hnone
                rw [getM_eq_none_iff, keysM_detachChild] at hnone
                exact (getM_eq_none_iff _ _).mpr hnone
              have hzz := hm1.2.2.1 x nx hx hm1none z hz
              exact none_of_storeLe _ _ hFSle z hzz
          exact ⟨storeLe_trans _ _ _ hFSle hm1.1,
            edgePres_trans _ _ _ hm1.2.1 hFSe hFSle, hDc⟩

/-- Fold twin of `delPkg` over a children list. -/
theorem delPkg_fold (rk : String → Nat) (fuel : Nat) (cs : List String) (m0 : Model)
    (hw : WF m0.nodes) (hr : RankedBy m0.nodes rk) (hc : ∀ c ∈ cs, rk c < fuel) :
    StoreLe (cs.foldl (fun acc cid => deleteNodeFuel fuel acc cid) m0).nodes m0.nodes ∧
    EdgePres m0.nodes (cs.foldl (fun acc cid => deleteNodeFuel fuel acc cid) m0).nodes ∧
    DelClosed m0.nodes (cs.foldl (fun acc cid => deleteNodeFuel fuel acc cid) m0).nodes ∧
    WF (cs.foldl (fun acc cid => deleteNodeFuel fuel acc cid) m0).nodes ∧
    (∀ c ∈ cs, getM (cs.foldl (fun acc cid => deleteNodeFuel fuel acc cid) m0).nodes c = none) := by
  induction cs generalizing m0 with
  | nil => exact ⟨storeLe_refl _, edgePres_refl _, delClosed_refl _, hw, by simp⟩
  | cons d ds ihd =>
      have hrkd : rk d < fuel := hc d (List.mem_cons_self d ds)
      have hpkg := delPkg rk fuel m0 d hw hr hrkd
      have hwa : WF (deleteNodeFuel fuel m0 d).nodes := WF_deleteNodeFuel fuel m0 d hw
      have hra : RankedBy (deleteNodeFuel fuel m0 d).nodes rk :=
        rankedBy_of_storeLe _ _ rk hpkg.1 hr
      have hrest := ihd (deleteNodeFuel fuel m0 d) hwa hra
        (fun c hcm => hc c (List.mem_cons_of_mem d hcm))
      simp only [List.foldl_cons]
      refine ⟨storeLe_trans _ _ _ hrest.1 hpkg.1,
        edgePres_trans _ _ _ hpkg.2.1 hrest.2.1 hrest.1,
        delClosed_trans _ _ _ hpkg.2.2 hrest.2.2.1 hpkg.2.1 hrest.1,
        hrest.2.2.2.1, ?_⟩
      intro c hcm
      rcases List.mem_cons.mp hcm with rfl | hcm2
      · have hdel : getM (deleteNodeFuel fuel m0 c).nodes c = none :=
          deleted_deleteNodeFuel fuel m0 c (by omega)
        exact none_of_storeLe _ _ hrest.1 c hdel
      · exact hrest.2.2.2.2 c hcm2

/-- Presence in the store equals membership in the key list. -/
theorem isSome_getM_iff_mem_keys (l : NodeMap) (k : String) :
    (getM l k).isSome ↔ k ∈ keysM l :=
  ⟨getM_mem_keys l k, mem_keys_isSome l k⟩

/-- If a mutation respecting `DelClosed` deleted a node, it deleted the
node's whole recorded subtree. -/
theorem subdel (m acc : Model) (hD : DelClosed m.nodes acc.nodes) :
    ∀ (f : Nat) (y x : String), x ∈ gadFuel f m y → getM acc.nodes y = none →
      getM acc.nodes x = none := by
  intro f
  induction f with
  | zero => intro y x hx _; simp [gadFuel] at hx
  | succ f ih =>
      intro y x hx hyn
      cases hgy : getM m.nodes y with
      | none => rw [gad_succ_none f m y hgy] at hx; simp at hx
      | some yn =>
          rw [gad_succ_some f m y yn hgy] at hx
          rcases List.mem_flatMap.mp hx with ⟨cid, hcid, hxm⟩
          have hcidn : getM acc.nodes cid = none := hD y yn hgy hyn cid hcid
          rcases List.mem_cons.mp hxm with rfl | hg
          · exact hcidn
          · exact ih cid x hg hcidn

/-- After a mutation respecting the deletion relations, every recorded
descendant is either gone or still a recorded descendant. -/
theorem gpres (m acc : Model) (hE : EdgePres m.nodes acc.nodes)
    (hD : DelClosed m.nodes acc.nodes) :
    ∀ (f : Nat) (c x : String), x ∈ gadFuel f m c →
      getM acc.nodes x = none ∨ x ∈ gadFuel f acc c := by
  intro f
  induction f with
  | zero => intro c x hx; simp [gadFuel] at hx
  | succ f ih =>
      intro c x hx
      cases hgc : getM m.nodes c with
      | none => rw [gad_succ_none f m c hgc] at hx; simp at hx
      | some cn =>
          rw [gad_succ_some f m c cn hgc] at hx
          rcases List.mem_flatMap.mp hx with ⟨cid, hcid, hxm⟩
          cases hac : getM acc.nodes c with
          | none =>
              refine Or.inl ?_
              have hcidn : getM acc.nodes cid = none := hD c cn hgc hac cid hcid
              rcases List.mem_cons.mp hxm with rfl | hg
              · exact hcidn
              · exact subdel m acc hD f cid x hg hcidn
          | some c2 =>
              rcases hE c cn c2 hgc hac cid hcid with hcid2 | hcidn
              · rcases List.mem_cons.mp hxm with rfl | hg
                · refine Or.inr ?_
                  rw [gad_succ_some f acc c c2 hac]
                  exact List.mem_flatMap.mpr ⟨x, hcid2, List.mem_cons_self _ _⟩
                · rcases ih cid x hg with hnone | hmem
                  · exact Or.inl hnone
                  · refine Or.inr ?_
                    rw [gad_succ_some f acc c c2 hac]
                    exact List.mem_flatMap.mpr ⟨cid, hcid2, List.mem_cons_of_mem _ hmem⟩
              · refine Or.inl ?_
                rcases List.mem_cons.mp hxm with rfl | hg
                · exact hcidn
                · exact subdel m acc hD f cid x hg hcidn

/-- Deletion completeness: with an adequate budget, `deleteNodeFuel`
removes the node and every collected descendant. -/
theorem delc (rk : String → Nat) : ∀ (fuel : Nat) (m : Model) (nid : String),
    WF m.nodes → RankedBy m.nodes rk → rk nid < fuel →
    ∀ x, x ∈ nid :: gadFuel fuel m nid →
      getM (deleteNodeFuel fuel m nid).nodes x = none := by
  intro fuel
  induction fuel with
  | zero => intro m nid _ _ h; exact absurd h (by omega)
  | succ fuel ih =>
      intro m nid hwf hrb hrk x hx
      rcases List.mem_cons.mp hx with rfl | hx
      · exact deleted_deleteNodeFuel (fuel + 1) m x (by omega)
      cases hn : getM m.nodes nid with
      | none => rw [gad_succ_none fuel m nid hn] at hx; simp at hx
      | some node =>
          rw [gad_succ_some fuel m nid node hn] at hx
          rcases List.mem_flatMap.mp hx with ⟨cid, hcid, hxm⟩
          have heq : deleteNodeFuel (fuel + 1) m nid
              = { (detachChild (node.children.foldl (fun acc cid => deleteNodeFuel fuel acc cid) m) nid node.parent) with
                  nodes := eraseM (detachChild (node.children.foldl (fun acc cid => deleteNodeFuel fuel acc cid) m) nid node.parent).nodes nid } := by
            conv_lhs => unfold deleteNodeFuel
            rw [hn]
          rw [heq]
          have hchild_rk : ∀ c ∈ node.children, rk c < fuel := by
            intro c hcm
            have := hrb nid node hn c hcm
            omega
          have hfoldD : ∀ (cs : List String) (m0 : Model), WF m0.nodes → RankedBy m0.nodes rk →
              StoreLe m0.nodes m.nodes → EdgePres m.nodes m0.nodes → DelClosed m.nodes m0.nodes →
              (∀ c ∈ cs, rk c < fuel) →
              ∀ c0 ∈ cs, ∀ y ∈ c0 :: gadFuel fuel m c0,
                getM (cs.foldl (fun acc cid => deleteNodeFuel fuel acc cid) m0).nodes y = none := by
            intro cs
            induction cs with
            | nil => intro m0 _ _ _ _ _ _ c0 hc0; simp at hc0
            | cons d ds ihd =>
                intro m0 hw hr hS hE hD hcr c0 hc0 y hy
                have hrkd : rk d < fuel := hcr d (List.mem_cons_self d ds)
                have hpkg := delPkg rk fuel m0 d hw hr hrkd
                have hwa : WF (deleteNodeFuel fuel m0 d).nodes := WF_deleteNodeFuel fuel m0 d hw
                have hra : RankedBy (deleteNodeFuel fuel m0 d).nodes rk :=
                  rankedBy_of_storeLe _ _ rk hpkg.1 hr
                have hSa : StoreLe (deleteNodeFuel fuel m0 d).nodes m.nodes :=
                  storeLe_trans _ _ _ hpkg.1 hS
                have hEa : EdgePres m.nodes (deleteNodeFuel fuel m0 d).nodes :=
                  edgePres_trans _ _ _ hE hpkg.2.1 hpkg.1
                have hDa : DelClosed m.nodes (deleteNodeFuel fuel m0 d).nodes :=
                  delClosed_trans _ _ _ hD hpkg.2.2 hE hpkg.1
                have hrestLe := (delPkg_fold rk fuel ds (deleteNodeFuel fuel m0 d) hwa hra
                  (fun c hcm => hcr c (List.mem_cons_of_mem d hcm))).1
                simp only [List.foldl_cons]
                rcases List.mem_cons.mp hc0 with rfl | hc02
                · rcases List.mem_cons.mp hy with rfl | hyg
                  · have hdel : getM (deleteNodeFuel fuel m0 y).nodes y = none :=
                      deleted_deleteNodeFuel fuel m0 y (by omega)
                    exact none_of_storeLe _ _ hrestLe y hdel
                  · rcases gpres m m0 hE hD fuel c0 y hyg with hnone | hmem
                    · have ha : getM (deleteNodeFuel fuel m0 c0).nodes y = none :=
                        none_of_storeLe _ _ hpkg.1 y hnone
                      exact none_of_storeLe _ _ hrestLe y ha
                    · have ha : getM (deleteNodeFuel fuel m0 c0).nodes y = none :=
                        ih m0 c0 hw hr hrkd y (List.mem_cons_of_mem _ hmem)
                      exact none_of_storeLe _ _ hrestLe y ha
                · exact ihd (deleteNodeFuel fuel m0 d) hwa hra hSa hEa hDa
                    (fun c hcm => hcr c (List.mem_cons_of_mem d hcm)) c0 hc02 y hy
          have hm1x : getM (node.children.foldl (fun acc cid => deleteNodeFuel fuel acc cid) m).nodes x = none :=
            hfoldD node.children m hwf hrb (storeLe_refl _) (edgePres_refl _) (delClosed_refl _)
              hchild_rk cid hcid x hxm
          show getM (eraseM (detachChild (node.children.foldl (fun acc cid => deleteNodeFuel fuel acc cid) m) nid node.parent).nodes nid) x = none
          rw [getM_eraseM]
          by_cases hxn : x = nid
          · rw [if_pos hxn]
          · rw [if_neg hxn]
            rw [getM_eq_none_iff, keysM_detachChild]
            exact (getM_eq_none_iff _ _).mp hm1x

/-- Deletion upper bound: nodes outside the collected subtree survive. -/
theorem delub (rk : String → Nat) : ∀ (fuel : Nat) (m : Model) (nid : String),
    WF m.nodes → RankedBy m.nodes rk → rk nid < fuel →
    ∀ x, ¬ x ∈ nid :: gadFuel fuel m nid → (getM m.nodes x).isSome →
      (getM (deleteNodeFuel fuel m nid).nodes x).isSome := by
  intro fuel
  induction fuel with
  | zero => intro m nid _ _ h; exact absurd h (by omega)
  | succ fuel ih =>
      intro m nid hwf hrb hrk x hx hpres
      have hxn : x ≠ nid := fun he => hx (he ▸ List.mem_cons_self nid _)
      have hxg : ¬ x ∈ gadFuel (fuel + 1) m nid := fun hg => hx (List.mem_cons_of_mem _ hg)
      cases hn : getM m.nodes nid with
      | none =>
          have heq : deleteNodeFuel (fuel + 1) m nid = m := by
            unfold deleteNodeFuel
            rw [hn]
          rw [heq]
          exact hpres
      | some node =>
          have heq : deleteNodeFuel (fuel + 1) m nid
              = { (detachChild (node.children.foldl (fun acc cid => deleteNodeFuel fuel acc cid) m) nid node.parent) with
                  nodes := eraseM (detachChild (node.children.foldl (fun acc cid => deleteNodeFuel fuel acc cid) m) nid node.parent).nodes nid } := by
            conv_lhs => unfold deleteNodeFuel
            rw [hn]
          rw [heq]
          have hchild_rk : ∀ c ∈ node.children, rk c < fuel := by
            intro c hcm
            have := hrb nid node hn c hcm
            omega
          have hblocks : ∀ c ∈ node.children, ¬ x ∈ c :: gadFuel fuel m c := by
            intro c hcm hmem
            apply hxg
            rw [gad_succ_some fuel m nid node hn]
            exact List.mem_flatMap.mpr ⟨c, hcm, hmem⟩
          have hfoldU : ∀ (cs : List String) (m0 : Model), WF m0.nodes →
              RankedBy m0.nodes rk → StoreLe m0.nodes m.nodes →
              (∀ c ∈ cs, rk c < fuel) → (∀ c ∈ cs, ¬ x ∈ c :: gadFuel fuel m c) →
              (getM m0.nodes x).isSome →
              (getM (cs.foldl (fun acc cid => deleteNodeFuel fuel acc cid) m0).nodes x).isSome := by
            intro cs
            induction cs with
            | nil => intro m0 _ _ _ _ _ hp; exact hp
            | cons d ds ihd =>
                intro m0 hw hr hS hcr hbl hp
                have hrkd : rk d < fuel := hcr d (List.mem_cons_self d ds)
                have hpkg := delPkg rk fuel m0 d hw hr hrkd
                have hnb : ¬ x ∈ d :: gadFuel fuel m0 d := by
                  intro hmem
                  apply hbl d (List.mem_cons_self d ds)
                  rcases List.mem_cons.mp hmem with rfl | hg
                  · exact List.mem_cons_self _ _
                  · exact List.mem_cons_of_mem _ (gadFuel_mono m0 m hS fuel d x hg)
                have hpa : (getM (deleteNodeFuel fuel m0 d).nodes x).isSome :=
                  ih m0 d hw hr hrkd x hnb hp
                simp only [List.foldl_cons]
                exact ihd (deleteNodeFuel fuel m0 d) (WF_deleteNodeFuel fuel m0 d hw)
                  (rankedBy_of_storeLe _ _ rk hpkg.1 hr) (storeLe_trans _ _ _ hpkg.1 hS)
                  (fun c hcm => hcr c (List.mem_cons_of_mem d hcm))
                  (fun c hcm => hbl c (List.mem_cons_of_mem d hcm)) hpa
          have hm1x : (getM (node.children.foldl (fun acc cid => deleteNodeFuel fuel acc cid) m).nodes x).isSome :=
            hfoldU node.children m hwf hrb (storeLe_refl _) hchild_rk hblocks hpres
          show (getM (eraseM (detachChild (node.children.foldl (fun acc cid => deleteNodeFuel fuel acc cid) m) nid node.parent).nodes nid) x).isSome = true
          rw [getM_eraseM, if_neg hxn]
          have hkm : x ∈ keysM (detachChild (node.children.foldl (fun acc cid => deleteNodeFuel fuel acc cid) m) nid node.parent).nodes := by
            rw [keysM_detachChild]
            exact (isSome_getM_iff_mem_keys _ x).mp hm1x
          exact (isSome_getM_iff_mem_keys _ x).mpr hkm

/-- Folding `Dataset.delete` over a quad list filters those quads out. -/
theorem foldl_deleteQuad (qs : List Quad) (d : Dataset) :
    qs.foldl deleteQuad d = d.filter (fun x => decide (¬ x ∈ qs)) := by
  induction qs generalizing d with
  | nil => simp
  | cons q qs ih =>
      rw [List.foldl_cons, ih]
      unfold deleteQuad
      rw [List.filter_filter]
      apply List.filter_congr
      intro x _
      by_cases h1 : x = q <;> by_cases h2 : x ∈ qs <;> simp [h1, h2]

/-- `removeNodeFromRDF` keeps exactly the quads that mention the node's
URI neither as subject nor as object. -/
theorem removeNodeFromRDF_filter (d : Dataset) (bu i : String) :
    removeNodeFromRDF d bu i =
      d.filter (fun q =>
        ¬ (q.subj == Term.named (bu ++ i) || q.obj == Term.named (bu ++ i))) := by
  simp only [removeNodeFromRDF]
  rw [foldl_deleteQuad]
  apply List.filter_congr
  intro x hx
  rw [decide_eq_decide]
  simp [List.mem_append, List.mem_filter, hx]

/-- Folding `removeNodeFromRDF` over an id list filters out every quad
touching any of the ids. -/
theorem fold_removeNode_filter (ids : List String) (d : Dataset) (bu : String) :
    ids.foldl (fun acc i => removeNodeFromRDF acc bu i) d
      = d.filter (fun q => ¬ touchesAny bu ids q) := by
  induction ids generalizing d with
  | nil => simp [touchesAny]
  | cons i ids ih =>
      rw [List.foldl_cons, ih, removeNodeFromRDF_filter, List.filter_filter]
      apply List.filter_congr
      intro x _
      simp only [touchesAny, List.any_cons]
      simp [decide_not, Bool.not_or, Bool.and_comm]

set_option maxHeartbeats 1000000 in
/-- C5: on a well-formed acyclic tree store (rank function `rk`,
parent-listed), deleting a stored node through the RDF layer removes
exactly the node and its `N` collected transitive descendants — the
store shrinks by `N + 1`, every collected id is gone, every other id
survives — and the dataset loses exactly the quads in which a deleted
node's URI occurs as subject or object (incoming `ts:parent` quads from
deleted children included), quads of surviving nodes being kept. -/
theorem claim5_delete_exact (rm : RDFModel) (nid : String) (rk : String → Nat) (node : TNode)
    (hwf : invB rm.model = true)
    (hrb : RankedBy rm.model.nodes rk)
    (hpl : ParentListed rm.model.nodes)
    (hnode : getM rm.model.nodes nid = some node)
    (hbound : rk nid < rm.model.nodes.length + 1) :
    ((rdfDeleteNode rm nid).model.nodes.length
        + (getAllDescendantIds rm.model nid ++ [nid]).length = rm.model.nodes.length) ∧
    (∀ x ∈ getAllDescendantIds rm.model nid ++ [nid],
      getM (rdfDeleteNode rm nid).model.nodes x = none) ∧
    (∀ x, ¬ x ∈ getAllDescendantIds rm.model nid ++ [nid] →
      (getM (rdfDeleteNode rm nid).model.nodes x).isSome = (getM rm.model.nodes x).isSome) ∧
    (rdfDeleteNode rm nid).rdfDataset =
      rm.rdfDataset.filter
        (fun q => ¬ touchesAny rm.model.baseUri (getAllDescendantIds rm.model nid ++ [nid]) q) := by
  have hWF := (invB_iff rm.model).mp hwf
  have hsi : StoreInv rm.model.nodes := hWF.2.2
  have hmodel : (rdfDeleteNode rm nid).model = deleteNode rm.model nid := rfl
  have hdn : deleteNode rm.model nid = deleteNodeFuel (rm.model.nodes.length + 1) rm.model nid := rfl
  have hmem_iff : ∀ x, (x ∈ getAllDescendantIds rm.model nid ++ [nid]) ↔ x ∈ (nid :: gadFuel (rm.model.nodes.length + 1) rm.model nid) := by
    intro x
    simp [getAllDescendantIds, List.mem_append, List.mem_cons, or_comm]
  have hdel : ∀ x ∈ getAllDescendantIds rm.model nid ++ [nid],
      getM (rdfDeleteNode rm nid).model.nodes x = none := by
    intro x hx
    rw [hmodel, hdn]
    exact delc rk (rm.model.nodes.length + 1) rm.model nid hWF hrb hbound x ((hmem_iff x).mp hx)
  have hframe : ∀ x, ¬ x ∈ getAllDescendantIds rm.model nid ++ [nid] →
      (getM (rdfDeleteNode rm nid).model.nodes x).isSome = (getM rm.model.nodes x).isSome := by
    intro x hx
    rw [hmodel, hdn]
    cases hpres : (getM rm.model.nodes x).isSome with
    | false =>
        have hmn : getM rm.model.nodes x = none := by
          cases hgx : getM rm.model.nodes x with
          | none => rfl
          | some nx => rw [hgx] at hpres; simp at hpres
        rw [none_of_storeLe _ _ (delPkg rk (rm.model.nodes.length + 1) rm.model nid hWF hrb hbound).1 x hmn]
        rfl
    | true =>
        have hres := delub rk (rm.model.nodes.length + 1) rm.model nid hWF hrb hbound x
          (fun hmem => hx ((hmem_iff x).mpr hmem)) hpres
        exact hres
  have hnid_not_gad : ¬ nid ∈ gadFuel (rm.model.nodes.length + 1) rm.model nid := by
    intro hmem
    have := gadFuel_rank_lt rm.model rk hsi hpl hrb (rm.model.nodes.length + 1) nid nid (by rw [hnode]; rfl) hmem
    omega
  have hDnodup : (nid :: gadFuel (rm.model.nodes.length + 1) rm.model nid).Nodup := by
    rw [List.nodup_cons]
    exact ⟨hnid_not_gad, gadFuel_nodup rm.model rk hsi hpl hrb (rm.model.nodes.length + 1) nid⟩
  have hDkeys : ∀ x ∈ (nid :: gadFuel (rm.model.nodes.length + 1) rm.model nid), x ∈ keysM rm.model.nodes := by
    intro x hx
    rcases List.mem_cons.mp hx with rfl | hg
    · exact (isSome_getM_iff_mem_keys _ _).mp (by rw [hnode]; rfl)
    · exact (isSome_getM_iff_mem_keys _ _).mp (mem_gadFuel_present rm.model hsi (rm.model.nodes.length + 1) nid x hg)
  have hWF2 : WF (deleteNodeFuel (rm.model.nodes.length + 1) rm.model nid).nodes := WF_deleteNodeFuel (rm.model.nodes.length + 1) rm.model nid hWF
  have hsurv : (keysM (deleteNodeFuel (rm.model.nodes.length + 1) rm.model nid).nodes).length
      = ((keysM rm.model.nodes).filter (fun k => !(decide (k ∈ (nid :: gadFuel (rm.model.nodes.length + 1) rm.model nid))))).length := by
    apply length_eq_of_nodup_of_mem_iff _ _ hWF2.1 (List.Nodup.filter _ hWF.1)
    intro a
    rw [List.mem_filter]
    constructor
    · intro ha
      have hsome := (isSome_getM_iff_mem_keys _ a).mpr ha
      have hnotD : ¬ a ∈ (nid :: gadFuel (rm.model.nodes.length + 1) rm.model nid) := by
        intro hmem
        have hz := delc rk (rm.model.nodes.length + 1) rm.model nid hWF hrb hbound a hmem
        rw [hz] at hsome
        simp at hsome
      refine ⟨?_, by simpa using hnotD⟩
      rcases Option.isSome_iff_exists.mp hsome with ⟨n', hn'⟩
      rcases (delPkg rk (rm.model.nodes.length + 1) rm.model nid hWF hrb hbound).1 a n' hn' with ⟨n0, hn0, _⟩
      exact (isSome_getM_iff_mem_keys _ a).mp (by rw [hn0]; rfl)
    · rintro ⟨hak, hnd⟩
      have hnotD : ¬ a ∈ (nid :: gadFuel (rm.model.nodes.length + 1) rm.model nid) := by simpa using hnd
      have hpres := (isSome_getM_iff_mem_keys _ a).mpr hak
      exact (isSome_getM_iff_mem_keys _ a).mp
        (delub rk (rm.model.nodes.length + 1) rm.model nid hWF hrb hbound a hnotD hpres)
  have hdelD : ((keysM rm.model.nodes).filter (fun k => decide (k ∈ (nid :: gadFuel (rm.model.nodes.length + 1) rm.model nid)))).length
      = (nid :: gadFuel (rm.model.nodes.length + 1) rm.model nid).length := by
    apply length_eq_of_nodup_of_mem_iff _ _ (List.Nodup.filter _ hWF.1) hDnodup
    intro a
    rw [List.mem_filter]
    constructor
    · rintro ⟨_, hd⟩
      simpa using hd
    · intro ha
      exact ⟨hDkeys a ha, by simpa using ha⟩
  have hsplit : (keysM rm.model.nodes).length
      = ((keysM rm.model.nodes).filter (fun k => decide (k ∈ (nid :: gadFuel (rm.model.nodes.length + 1) rm.model nid)))).length
        + ((keysM rm.model.nodes).filter (fun k => !(decide (k ∈ (nid :: gadFuel (rm.model.nodes.length + 1) rm.model nid))))).length :=
    List.length_eq_length_filter_add _
  have hkeyslen : (keysM rm.model.nodes).length = rm.model.nodes.length := by
    unfold keysM
    rw [List.length_map]
  have hkeyslen2 : (keysM (deleteNodeFuel (rm.model.nodes.length + 1) rm.model nid).nodes).length
      = (deleteNodeFuel (rm.model.nodes.length + 1) rm.model nid).nodes.length := by
    unfold keysM
    rw [List.length_map]
  have hidslen : (getAllDescendantIds rm.model nid ++ [nid]).length = (nid :: gadFuel (rm.model.nodes.length + 1) rm.model nid).length := by
    simp [getAllDescendantIds]
  refine ⟨?_, hdel, hframe, ?_⟩
  · rw [hmodel, hdn, hidslen]
    omega
  · rw [show (rdfDeleteNode rm nid).rdfDataset
        = (getAllDescendantIds rm.model nid ++ [nid]).foldl
            (fun acc i => removeNodeFromRDF acc rm.model.baseUri i) rm.rdfDataset from rfl,
      fold_removeNode_filter]

/-- Witness for C5 on the one-child RDF store: deleting the leaf `n1`
shrinks the store by one and filters its quads out of the dataset. -/
theorem claim5_witness :
    ((rdfDeleteNode exRDFOne "n1").model.nodes.length
        + (getAllDescendantIds exRDFOne.model "n1" ++ ["n1"]).length
        = exRDFOne.model.nodes.length) ∧
    (rdfDeleteNode exRDFOne "n1").rdfDataset =
      exRDFOne.rdfDataset.filter
        (fun q => ¬ touchesAny exRDFOne.model.baseUri
          (getAllDescendantIds exRDFOne.model "n1" ++ ["n1"]) q) :=
  ⟨(claim5_delete_exact exRDFOne "n1" rkEx
      { id := "n1", type := "Node", title := some "a", created := some "2025-01-01T00:00:01Z", description := none, parent := some "root-1", index := some 0, children := [] }
      (by decide) (rankedBy_of_b exRDFOne.model rkEx (by decide))
      (parentListed_of_b exRDFOne.model (by decide)) (by decide) (by decide)).1,
   (claim5_delete_exact exRDFOne "n1" rkEx
      { id := "n1", type := "Node", title := some "a", created := some "2025-01-01T00:00:01Z", description := none, parent := some "root-1", index := some 0, children := [] }
      (by decide) (rankedBy_of_b exRDFOne.model rkEx (by decide))
      (parentListed_of_b exRDFOne.model (by decide)) (by decide) (by decide)).2.2.2⟩

end Trestle
